import Mathlib

/-!
# Verification of the milesan-yosys signal-flow tracer and probe puller

Shallow embedding of the passes `find_next_mux` (FindNextMuxWorker, the
signal path tracer), `pull_control_registers_probes`
(ControlRegistersProbesWorker, the hierarchical probe puller) and the
module dependency orderer used by both pass entry points.

Modelling conventions:
* `RTLIL::IdString` values (wire names, port names, cell types) are plain
  `String`s carrying their `\` or `$` prefix, e.g. `"\\S"`, `"$mux"`.
* An `RTLIL::Wire *` that a `SigChunk` points to is modelled by the data the
  tracer reads from it: its name and total width (`WireRef`).
* `RTLIL::SigSpec` is its (packed) list of chunks; a constant chunk has
  `wire = none`.
* `log_error`/`log_cmd_error` calls and failing `log_assert`s inside
  accessors (`as_wire`, `as_chunk`, `getPort` on a missing port,
  constructing a `SigSpec` from a null wire) abort the process; they are
  modelled as a `crash` outcome tagged with the program point.
* The loop of `find_next_mux` is given a fuel parameter; running out of
  fuel is the distinct outcome `fuelOut` (never produced by the C++ code;
  the termination theorem shows enough fuel always exists).
-/

namespace Milesan

/-- The data a `SigChunk` reads from its `RTLIL::Wire *`: the wire's name
and the wire's full width (`wire->name`, `wire->width`). -/
structure WireRef where
  name : String
  wwidth : Nat
deriving DecidableEq, Repr

/-- `RTLIL::SigChunk`: a bit range of a wire (`wire`, `offset`, `width`),
or a constant when `wire = none`. -/
structure SigChunk where
  wire : Option WireRef
  offset : Nat
  width : Nat
deriving DecidableEq, Repr

/-- `RTLIL::SigSpec` in packed form: the list of its chunks. -/
structure SigSpec where
  chunks : List SigChunk
deriving DecidableEq, Repr

/-- `SigSpec::is_wire()`: exactly one chunk, backed by a wire, and the
spec's width equals the full width of that wire. -/
def SigSpec.is_wire (s : SigSpec) : Bool :=
  match s.chunks with
  | [c] =>
    match c.wire with
    | some wr => c.width == wr.wwidth
    | none => false
  | _ => false

/-- `SigSpec::as_wire()`: the backing wire when `is_wire()` holds; `none`
models the failing `log_assert(is_wire())`. -/
def SigSpec.as_wire (s : SigSpec) : Option WireRef :=
  match s.chunks with
  | [c] =>
    match c.wire with
    | some wr => if c.width == wr.wwidth then some wr else none
    | none => none
  | _ => none

/-- The `SigSpec` denoting one whole wire (the implicit
`SigSpec(RTLIL::Wire *)` conversion). -/
def wholeSpec (wr : WireRef) : SigSpec :=
  ⟨[⟨some wr, 0, wr.wwidth⟩]⟩

/-- `RTLIL::Wire`: name, width, port direction flags, port index and
boolean attributes. -/
structure Wire where
  name : String
  width : Nat
  port_input : Bool := false
  port_output : Bool := false
  port_id : Nat := 0
  attrs : List String := []
deriving DecidableEq, Repr

/-- The `WireRef` a chunk pointing at this wire would carry. -/
def Wire.ref (w : Wire) : WireRef := ⟨w.name, w.width⟩

/-- `RTLIL::Cell`: name (with its interned `IdString` index `index_`),
type, the `connections()` association list (port name, signal), the sets of
port names for which `cell->input`/`cell->output` hold, and boolean
attributes. -/
structure Cell where
  name : String
  nameIdx : Nat
  type : String
  connections : List (String × SigSpec)
  inputPorts : List String
  outputPorts : List String
  attrs : List String := []
deriving DecidableEq, Repr

/-- `Cell::getPort`: look the port up among the cell's connections. -/
def Cell.getPort (c : Cell) (pname : String) : Option SigSpec :=
  (c.connections.find? (fun pc => pc.1 == pname)).map (·.2)

/-- `Cell::has_attribute`. -/
def Cell.hasAttr (c : Cell) (a : String) : Bool := c.attrs.contains a

/-- `RTLIL::Module`: name, wires, selected cells, `connections()` and the
`processes.size()` emptiness flag, plus boolean attributes. -/
structure Module where
  name : String
  wires : List Wire
  cells : List Cell
  connections : List (SigSpec × SigSpec)
  hasProcesses : Bool := false
  attrs : List String := []
deriving DecidableEq, Repr

/-- `Module::wire(name)`. -/
def Module.wire? (m : Module) (wname : String) : Option Wire :=
  m.wires.find? (fun w => w.name == wname)

/-- `RTLIL::Design`: the modules. -/
structure Design where
  modules : List Module
deriving DecidableEq, Repr

/-- `Design::module(name)`: resolve a cell type to a module. -/
def Design.module? (d : Design) (mname : String) : Option Module :=
  d.modules.find? (fun m => m.name == mname)

/-! ## Substring test (`std::string::find(pat) != npos`) -/

/-- `pat` is a prefix of `l` (character lists). -/
def lcStarts : List Char → List Char → Bool
  | [], _ => true
  | _ :: _, [] => false
  | a :: as, b :: bs => a == b && lcStarts as bs

/-- `pat` occurs somewhere inside `l` (character lists). -/
def lcContains (pat : List Char) : List Char → Bool
  | [] => lcStarts pat []
  | b :: bs => lcStarts pat (b :: bs) || lcContains pat bs

/-- `s.find(pat) != std::string::npos`. -/
def strContains (s pat : String) : Bool := lcContains pat.toList s.toList

/-! ## `sanitize_wire_name` (pull_control_registers_probes.cc, lines 36-45) -/

/-- The characters stripped by `sanitize_wire_name`. -/
def bannedChar (c : Char) : Bool :=
  c == '$' || c == ':' || c == '.' || c == '\\' || c == '[' || c == ']'

/-- `ControlRegistersProbesWorker::sanitize_wire_name`: drop every banned
character, then prepend a backslash. -/
def sanitize_wire_name (wire_name : String) : String :=
  ⟨'\\' :: wire_name.toList.filter (fun c => !bannedChar c)⟩

/-! ## `initialize_module_to_parent_map` (find_next_mux, lines 54-63) -/

/-- `std::unordered_map::operator[] =`: replace the binding of `k` if
present, append it otherwise. -/
def mapInsert (k v : Module) : List (Module × Module) → List (Module × Module)
  | [] => [(k, v)]
  | (k', v') :: rest =>
    if k' = k then (k, v) :: rest else (k', v') :: mapInsert k v rest

/-- `unordered_map::count(k) > 0 ? map[k] : none`. -/
def mapLookup (pmap : List (Module × Module)) (k : Module) : Option Module :=
  (pmap.find? (fun kv => kv.1 = k)).map (·.2)

/-- Process one module of `initialize_module_to_parent_map`: the inner loop
over `module->selected_cells()`. -/
def initParentCells (d : Design) (parent : Module) :
    List Cell → List (Module × Module) → List (Module × Module)
  | [], pmap => pmap
  | cell :: cells, pmap =>
    match d.module? cell.type with
    | some child => initParentCells d parent cells (mapInsert child parent pmap)
    | none => initParentCells d parent cells pmap

/-- `FindNextMuxWorker::initialize_module_to_parent_map`. -/
def initialize_module_to_parent_map (d : Design) (all_modules : List Module) :
    List (Module × Module) :=
  all_modules.foldl (fun pmap m => initParentCells d m m.cells pmap) []

/-! ## `find_better_wirename` (find_next_mux, lines 65-80) -/

/-- Does this signal name a `\`-prefixed (public) wire? Guarded use of
`conn.first.is_wire() && conn.first.as_wire()->name.str()[0] == '\\'`. -/
def goodAlias (s : SigSpec) : Option String :=
  match s.as_wire with
  | some wr => if wr.name.toList.head? == some '\\' then some wr.name else none
  | none => none

/-- `FindNextMuxWorker::find_better_wirename`: scan the module's
connections for a public-named alias of `wire`, else keep its own name. -/
def find_better_wirename (m : Module) (wr : WireRef) : String :=
  go m.connections
where
  go : List (SigSpec × SigSpec) → String
  | [] => wr.name
  | (c1, c2) :: rest =>
    if c2 = wholeSpec wr then
      match goodAlias c1 with
      | some n => n
      | none => go rest
    else if c1 = wholeSpec wr then
      match goodAlias c2 with
      | some n => n
      | none => go rest
    else go rest

/-! ## The tracer `find_next_mux` (find_next_mux, lines 83-244)

A Search Node is a `(module, sigspec)` pair (`module_sigspec_pair_t`). -/

/-- `module_sigspec_pair_t`. -/
abbrev Pair := Module × SigSpec

/-- Program points at which `find_next_mux` aborts: a `log_error`, or a
failing `log_assert` inside an accessor evaluated by a `log(...)` argument
or a queue push. -/
inductive CrashSite
  /-- line 96: `current_sigspec.as_wire()` on an already-explored non-wire pair. -/
  | exploredLog
  /-- lines 101-102: `log_error` when the module still has processes. -/
  | processError
  /-- line 133/141: `cell->getPort(ID::S)` on a mux without an `S` connection. -/
  | sPortMissing
  /-- line 133: `cell->getPort(ID::S).as_wire()` when `S` is not a single whole wire. -/
  | sAsWire
  /-- lines 130/136: `cell->getPort(ID::Y)` on a mux without a `Y` connection. -/
  | yPortMissing
  /-- line 150: `s_port.as_chunk()` on a multi-chunk `S`, or a constant chunk. -/
  | retChunk
  /-- line 172: `output_port.second.as_wire()` in the fan-out log. -/
  | fanoutLog
  /-- line 189: `conn.first.as_wire()` in the direct-connection log. -/
  | connLog
  /-- line 204: `submodule->wire(port.first)` returned null. -/
  | submodWireMissing
  /-- line 232: `cell->getPort(port.first).as_wire()` in the ascent log. -/
  | ascentLog
  /-- lines 258-260: the start wire does not exist in the start module. -/
  | startWireMissing
deriving DecidableEq, Repr

/-- Outcome of one trace: the returned `(wire name, module name)` pair, the
`{"NONE","NONE"}` sentinel, an abort, or fuel exhaustion (a model artifact,
shown unreachable by the termination theorem). -/
inductive TraceResult
  | found (wireName moduleName : String)
  | notFound
  | crash (site : CrashSite)
  | fuelOut
deriving DecidableEq, Repr

/-- Outcome of one expansion phase: the updated worklist, or an early
return out of `find_next_mux`. -/
inductive PhaseOut
  | cont (q : List Pair)
  | ret (r : TraceResult)
deriving DecidableEq, Repr

/-- Line 123: `port.second.is_wire() && port.second.as_wire()->name ==
curr_chunk.wire->name` — the signal is a single whole wire named `wname`. -/
def sigMatchW (psig : SigSpec) (wname : String) : Bool :=
  match psig.as_wire with
  | some wr => wr.name == wname
  | none => false

/-- Line 122-123: the guard of the selector check — the cell is a `$mux`,
the port's signal is a single whole wire named like the current chunk's
wire, and the port is an input port of the cell. -/
def muxDataMatch (cell : Cell) (wname pname : String) (psig : SigSpec) : Bool :=
  cell.type == "$mux" && sigMatchW psig wname && cell.inputPorts.contains pname

/-- Phase 1 (lines 120-156), inner loop over one cell's connections:
selector check with the `S`-port and reset-name dispositions. -/
def phase1Ports (m : Module) (w : WireRef) (cell : Cell) :
    List (String × SigSpec) → List Pair → PhaseOut
  | [], q => .cont q
  | (pname, psig) :: ps, q =>
    if muxDataMatch cell w.name pname psig then
      if pname == "\\S" then
        match cell.getPort "\\Y" with
        | none => .ret (.crash .yPortMissing)
        | some y => phase1Ports m w cell ps (q ++ [(m, y)])
      else
        match cell.getPort "\\S" with
        | none => .ret (.crash .sPortMissing)
        | some s =>
          match s.as_wire with
          | none => .ret (.crash .sAsWire)
          | some sw =>
            if strContains sw.name "rstz" then
              match cell.getPort "\\Y" with
              | none => .ret (.crash .yPortMissing)
              | some y => phase1Ports m w cell ps (q ++ [(m, y)])
            else
              if s.is_wire then
                .ret (.found (find_better_wirename m sw) m.name)
              else
                match s.chunks with
                | [c] =>
                  match c.wire with
                  | some cw => .ret (.found (find_better_wirename m cw) m.name)
                  | none => .ret (.crash .retChunk)
                | _ => .ret (.crash .retChunk)
    else phase1Ports m w cell ps q

/-- Phase 1 (line 119): loop over the module's selected cells. -/
def phase1Cells (m : Module) (w : WireRef) :
    List Cell → List Pair → PhaseOut
  | [], q => .cont q
  | cell :: cs, q =>
    match phase1Ports m w cell cell.connections q with
    | .ret r => .ret r
    | .cont q' => phase1Cells m w cs q'

/-- Lines 169-174: push every output port of `cell` to the back of the
worklist; the log dereferences each pushed signal with `as_wire()`. -/
def pushOutputs (m : Module) (cell : Cell) :
    List (String × SigSpec) → List Pair → PhaseOut
  | [], q => .cont q
  | (oname, osig) :: ps, q =>
    if cell.outputPorts.contains oname then
      match osig.as_wire with
      | none => .ret (.crash .fanoutLog)
      | some _ => pushOutputs m cell ps (q ++ [(m, osig)])
    else pushOutputs m cell ps q

/-- Phase 2 (lines 165-177), inner loop over one cell's connections. -/
def phase2Ports (m : Module) (w : WireRef) (cell : Cell) :
    List (String × SigSpec) → List Pair → PhaseOut
  | [], q => .cont q
  | (pname, psig) :: ps, q =>
    if sigMatchW psig w.name then
      if cell.inputPorts.contains pname then
        match pushOutputs m cell cell.connections q with
        | .ret r => .ret r
        | .cont q' => phase2Ports m w cell ps q'
      else phase2Ports m w cell ps q
    else phase2Ports m w cell ps q

/-- Phase 2 (lines 160-178): fan-in exploration through non-module cells. -/
def phase2Cells (d : Design) (m : Module) (w : WireRef) :
    List Cell → List Pair → PhaseOut
  | [], q => .cont q
  | cell :: cs, q =>
    if (d.module? cell.type).isSome then phase2Cells d m w cs q
    else
      match phase2Ports m w cell cell.connections q with
      | .ret r => .ret r
      | .cont q' => phase2Cells d m w cs q'

/-- Phase 3 (lines 181-191): direct connections whose right-hand side is
the current wire push their left-hand side to the front; the log then
dereferences `conn.first` with `as_wire()`. -/
def phase3Conns (m : Module) (w : WireRef) :
    List (SigSpec × SigSpec) → List Pair → PhaseOut
  | [], q => .cont q
  | (c1, c2) :: cs, q =>
    if sigMatchW c2 w.name then
      match c1.as_wire with
      | none => .ret (.crash .connLog)
      | some _ => phase3Conns m w cs ((m, c1) :: q)
    else phase3Conns m w cs q

/-- Phase 4 (lines 197-215), inner loop over one instance cell's
connections: descend into a submodule through a non-output port. The log
at line 205 re-reads `cell->getPort(port.first).as_wire()`, which is the
matched signal itself and therefore a whole wire. -/
def phase4Ports (m : Module) (w : WireRef) (submod : Module) (cell : Cell) :
    List (String × SigSpec) → List Pair → PhaseOut
  | [], q => .cont q
  | (pname, psig) :: ps, q =>
    if sigMatchW psig w.name then
      if cell.outputPorts.contains pname then
        phase4Ports m w submod cell ps q
      else
        match submod.wire? pname with
        | none => .ret (.crash .submodWireMissing)
        | some sw => phase4Ports m w submod cell ps ((submod, wholeSpec sw.ref) :: q)
    else phase4Ports m w submod cell ps q

/-- Phase 4 (lines 194-217): loop over instance cells. -/
def phase4Cells (d : Design) (m : Module) (w : WireRef) :
    List Cell → List Pair → PhaseOut
  | [], q => .cont q
  | cell :: cs, q =>
    match d.module? cell.type with
    | none => phase4Cells d m w cs q
    | some submod =>
      match phase4Ports m w submod cell cell.connections q with
      | .ret r => .ret r
      | .cont q' => phase4Cells d m w cs q'

/-- Phase 5 (lines 229-234), inner loop over one parent instance cell's
connections: a port whose name equals the current wire's name pushes the
parent-side signal to the front; the log then dereferences it with
`as_wire()`. -/
def phase5Ports (parent : Module) (w : WireRef) (cell : Cell) :
    List (String × SigSpec) → List Pair → PhaseOut
  | [], q => .cont q
  | (pname, psig) :: ps, q =>
    if pname == w.name then
      match psig.as_wire with
      | none => .ret (.crash .ascentLog)
      | some _ => phase5Ports parent w cell ps ((parent, psig) :: q)
    else phase5Ports parent w cell ps q

/-- Phase 5 (lines 227-236): loop over the parent's cells instantiating
the current module. -/
def phase5Cells (d : Design) (m : Module) (w : WireRef) (parent : Module) :
    List Cell → List Pair → PhaseOut
  | [], q => .cont q
  | cell :: cs, q =>
    if d.module? cell.type = some m then
      match phase5Ports parent w cell cell.connections q with
      | .ret r => .ret r
      | .cont q' => phase5Cells d m w parent cs q'
    else phase5Cells d m w parent cs q

/-- Phase 5 (lines 220-240): hierarchy ascent when the chunk's wire is a
wire of the current module and a parent is known. -/
def phase5Wires (d : Design) (pmap : List (Module × Module)) (m : Module) (w : WireRef) :
    List Wire → List Pair → PhaseOut
  | [], q => .cont q
  | wr :: ws, q =>
    if wr.name == w.name then
      match mapLookup pmap m with
      | none => phase5Wires d pmap m w ws q
      | some parent =>
        match phase5Cells d m w parent parent.cells q with
        | .ret r => .ret r
        | .cont q' => phase5Wires d pmap m w ws q'
    else phase5Wires d pmap m w ws q

/-- Lines 104-241: expand one popped Search Node, chunk by chunk; a chunk
not backed by a wire is skipped (lines 105-108). -/
def expandChunks (d : Design) (pmap : List (Module × Module)) (m : Module) :
    List SigChunk → List Pair → PhaseOut
  | [], q => .cont q
  | c :: cs, q =>
    match c.wire with
    | none => expandChunks d pmap m cs q
    | some w =>
      match phase1Cells m w m.cells q with
      | .ret r => .ret r
      | .cont q1 =>
        match phase2Cells d m w m.cells q1 with
        | .ret r => .ret r
        | .cont q2 =>
          match phase3Conns m w m.connections q2 with
          | .ret r => .ret r
          | .cont q3 =>
            match phase4Cells d m w m.cells q3 with
            | .ret r => .ret r
            | .cont q4 =>
              match phase5Wires d pmap m w m.wires q4 with
              | .ret r => .ret r
              | .cont q5 => expandChunks d pmap m cs q5

/-- The tracer's state: the design and parent map the worker holds, the
double-ended worklist and the already-explored set. -/
structure LoopState where
  design : Design
  pmap : List (Module × Module)
  queue : List Pair
  visited : List Pair
deriving DecidableEq, Repr

/-- Result of running the worklist loop: the trace outcome, the final
state, and (ghost instrumentation) the list of Search Nodes that were
popped while unexplored and inserted into the explored set, in order. -/
structure RunOut where
  result : TraceResult
  final : LoopState
  expanded : List Pair
deriving DecidableEq, Repr

/-- `FindNextMuxWorker::find_next_mux` (lines 83-244), with fuel: pop the
front node; skip it if already explored (the skip log dereferences the
signal with `as_wire()`); otherwise record it as explored, reject modules
with processes, and expand its chunks. -/
def findNextMuxLoop : Nat → LoopState → RunOut
  | 0, st => ⟨.fuelOut, st, []⟩
  | Nat.succ fuel, st =>
    match st.queue with
    | [] => ⟨.notFound, st, []⟩
    | p :: rest =>
      if p ∈ st.visited then
        match p.2.as_wire with
        | none => ⟨.crash .exploredLog, st, []⟩
        | some _ => findNextMuxLoop fuel { st with queue := rest }
      else
        let st1 : LoopState := { st with queue := rest, visited := p :: st.visited }
        if p.1.hasProcesses then ⟨.crash .processError, st1, [p]⟩
        else
          match expandChunks st.design st.pmap p.1 p.2.chunks rest with
          | .ret r => ⟨r, st1, [p]⟩
          | .cont q' =>
            let out := findNextMuxLoop fuel { st1 with queue := q' }
            { out with expanded := p :: out.expanded }

/-- `FindNextMuxWorker`'s constructor (lines 247-268): build the parent
map, seed the worklist with the start wire, run the search. -/
def findNextMuxWorkerRun (d : Design) (start_module : Module)
    (all_modules : List Module) (start_wire_name : String) (fuel : Nat) : RunOut :=
  let pmap := initialize_module_to_parent_map d all_modules
  match start_module.wire? ("\\" ++ start_wire_name) with
  | none => ⟨.crash .startWireMissing, ⟨d, pmap, [], []⟩, []⟩
  | some w => findNextMuxLoop fuel ⟨d, pmap, [(start_module, wholeSpec w.ref)], []⟩

/-! ## Module dependency orderer

The worklist that feeds `TopoSort` is in the source
(pull_control_registers_probes.cc lines 151-166, find_next_mux lines
319-338, textually identical); `TopoSort` itself lives in `kernel/utils.h`,
which is not part of the sources, so the sort is modelled from the spec. -/

/-- `TopoSort`'s node database and edge list. `node()` enters a node
idempotently; `edge(a, b)` ("a before b") also enters both endpoints. -/
structure TopoState where
  db : List Module
  edges : List (Module × Module)
deriving DecidableEq, Repr

/-- `TopoSort::node` (idempotent insert into the database). -/
def topoNode (m : Module) (ts : TopoState) : TopoState :=
  { ts with db := if m ∈ ts.db then ts.db else ts.db ++ [m] }

/-- `TopoSort::edge a b`: `a` must precede `b`; both become nodes. -/
def topoEdge (a b : Module) (ts : TopoState) : TopoState :=
  let ts1 := topoNode b (topoNode a ts)
  { ts1 with edges := ts1.edges ++ [(a, b)] }

/-- Inner loop over `module->selected_cells()` (lines 158-165): for each
cell whose type resolves to a module `tpl`, push `tpl` onto the worklist
unless already in the database, and add the edge `tpl → module`. -/
def buildTopoCells (d : Design) (m : Module) :
    List Cell → TopoState → List Module → TopoState × List Module
  | [], ts, wl => (ts, wl)
  | cell :: cs, ts, wl =>
    match d.module? cell.type with
    | none => buildTopoCells d m cs ts wl
    | some tpl =>
      let wl' := if tpl ∈ ts.db then wl else wl ++ [tpl]
      buildTopoCells d m cs (topoEdge tpl m ts) wl'

/-- Worklist loop (lines 153-166), with fuel: pop the first module, enter
it as a node, scan its cells. -/
def buildTopoLoop (d : Design) : Nat → List Module → TopoState → Option TopoState
  | _, [], ts => some ts
  | 0, _ :: _, _ => none
  | Nat.succ fuel, m :: wl, ts =>
    let ts1 := topoNode m ts
    let (ts2, wl2) := buildTopoCells d m m.cells ts1 wl
    buildTopoLoop d fuel wl2 ts2

/-- The dependency graph of the selected modules, built with fuel large
enough for the worklist loop (one pop per selected module plus at most one
push per design module). -/
def buildTopoFor (d : Design) (selected : List Module) : Option TopoState :=
  buildTopoLoop d (selected.length + d.modules.length + 1) selected ⟨[], []⟩

/-- A node all of whose predecessors along `edges` are already emitted. -/
def kahnReady (edges : List (Module × Module)) (emitted : List Module) (n : Module) : Bool :=
  edges.all (fun e => if e.2 = n then decide (e.1 ∈ emitted) else true)

/-- One-node-at-a-time topological sort: emit any node whose predecessors
are all emitted; fail when blocked nodes remain. -/
def kahnLoop (edges : List (Module × Module)) :
    Nat → List Module → List Module → Option (List Module)
  | _, [], emitted => some emitted.reverse
  | 0, _ :: _, _ => none
  | Nat.succ fuel, rem, emitted =>
    match rem.find? (kahnReady edges emitted) with
    | none => none
    | some n => kahnLoop edges fuel (rem.erase n) (n :: emitted)

/-- Modelled from the spec: `TopoSort::sort` of `kernel/utils.h` (absent
from the sources) — "build a directed edge (instantiated → instantiator)
for every cell whose type resolves to a module; run a topological sort
...; if the instantiation graph has a cycle, fail". Realised as Kahn's
algorithm over the node database. -/
def topoSort (nodes : List Module) (edges : List (Module × Module)) :
    Option (List Module) :=
  kahnLoop edges nodes.length nodes []

/-! ## The probe puller `pull_control_registers_probes` -/

/-- `Cell::setPort`: replace the binding of the port, or add it. -/
def Cell.setPort (c : Cell) (pname : String) (sig : SigSpec) : Cell :=
  if (c.connections.find? (fun pc => pc.1 == pname)).isSome then
    { c with connections :=
        c.connections.map (fun pc => if pc.1 == pname then (pc.1, sig) else pc) }
  else { c with connections := c.connections ++ [(pname, sig)] }

/-- Renumber the port ids of the port wires. Modelled from the spec (§4.1
mutation side; kernel `fixup_ports` is absent from the sources): port
wires receive consecutive ids, the others id 0. -/
def fixupWires : List Wire → Nat → List Wire
  | [], _ => []
  | w :: ws, i =>
    if w.port_input || w.port_output then
      { w with port_id := i } :: fixupWires ws (i + 1)
    else { w with port_id := 0 } :: fixupWires ws i

/-- `Module::fixup_ports`, see `fixupWires`. -/
def fixup_ports (m : Module) : Module :=
  { m with wires := fixupWires m.wires 1 }

/-- The raw (pre-sanitize) probe wire name of line 68: a function of the
owning cell's interned name index, the chunk index, and the chunk's bit
offsets. -/
def probeChunkName (cellIdx chunk_id offset width : Nat) : String :=
  "crtlreg_prbsig" ++ toString cellIdx ++ "WIRE" ++ toString chunk_id ++
  "BITS" ++ toString offset ++ "_" ++ toString (offset + width) ++ "_"

/-- The raw (pre-sanitize) re-threading wire name of line 90. -/
def subProbeName (swName cellName : String) (portId : Nat) : String :=
  swName ++ "INST" ++ cellName ++ "PORT" ++ toString portId

/-- Lines 62-82: for each wire-backed chunk of the register cell's `Q`
output, add a sanitized, externally visible probe wire connected to the
chunk. `addWire` on an existing name is a kernel assertion failure. -/
def pullChunks (cell : Cell) : List SigChunk → Nat → Module → List String →
    Except String (Module × List String)
  | [], _, m, names => .ok (m, names)
  | ch :: chs, chunk_id, m, names =>
    match ch.wire with
    | none => pullChunks cell chs chunk_id m names
    | some _ =>
      let wname := sanitize_wire_name (probeChunkName cell.nameIdx chunk_id ch.offset ch.width)
      if (m.wire? wname).isSome then .error "addWire: wire name exists"
      else
        let nw : Wire := { name := wname, width := ch.width, port_output := true,
                           attrs := ["regstate_cell_wire"] }
        let m' := fixup_ports { m with
            wires := m.wires ++ [nw],
            connections := m.connections ++ [(wholeSpec nw.ref, ⟨[ch]⟩)] }
        pullChunks cell chs (chunk_id + 1) m' (names ++ [wname])

/-- Lines 88-101: for each marked probe wire of an instantiated (already
processed) submodule, add a matching wire, bind it to the instance's port,
and mark it externally visible. -/
def pullSubWires (cell : Cell) : List Wire → Module → List String →
    Except String (Module × List String)
  | [], m, names => .ok (m, names)
  | sw :: sws, m, names =>
    if sw.attrs.contains "regstate_cell_wire" then
      let wname := sanitize_wire_name (subProbeName sw.name cell.name sw.port_id)
      if (m.wire? wname).isSome then .error "addWire: wire name exists"
      else
        let nw : Wire := { name := wname, width := sw.width, port_output := true,
                           attrs := ["regstate_cell_wire"] }
        let m' := fixup_ports { m with
            wires := m.wires ++ [nw],
            cells := m.cells.map (fun c =>
              if c.name == cell.name then c.setPort sw.name (wholeSpec nw.ref) else c) }
        pullSubWires cell sws m' (names ++ [wname])
    else pullSubWires cell sws m names

/-- Lines 56-103: per-cell dispatch of the worker. -/
def pullCell (d : Design) (m : Module) (cell : Cell) :
    Except String (Module × List String) :=
  if cell.hasAttr "regstate_cell" then
    match cell.getPort "\\Q" with
    | none => .error "getPort: no Q connection"
    | some q => pullChunks cell q.chunks 0 m []
  else
    match d.module? cell.type with
    | some submod => pullSubWires cell submod.wires m []
    | none => .ok (m, [])

/-- Loop over the module's cells, accumulating the created wire names. -/
def pullCellsLoop (d : Design) : List Cell → Module → List String →
    Except String (Module × List String)
  | [], m, names => .ok (m, names)
  | cell :: cs, m, names =>
    match pullCell d m cell with
    | .error e => .error e
    | .ok (m', ns) => pullCellsLoop d cs m' (names ++ ns)

/-- `ControlRegistersProbesWorker::create_control_registers_probes`
(lines 49-105): reject processes, process each cell, mark the module. -/
def create_control_registers_probes (d : Design) (m : Module) :
    Except String (Module × List String) :=
  if m.hasProcesses then .error "Unexpected process. Requires a `proc` pass before."
  else
    match pullCellsLoop d m.cells m [] with
    | .error e => .error e
    | .ok (m', names) =>
      .ok ({ m' with attrs := m'.attrs ++ ["regstate_cells_probes"] }, names)

/-- Replace the module of the same name in the design. -/
def Design.updateModule (d : Design) (m : Module) : Design :=
  ⟨d.modules.map (fun x => if x.name == m.name then m else x)⟩

/-- Run the worker on each module of the ordered sequence (lines 171-174),
mutating the design as it goes; also record the names created per module. -/
def pullProbesFold (dsn : Design) : List Module → List (String × List String) →
    Except String (Design × List (String × List String))
  | [], acc => .ok (dsn, acc)
  | m :: ms, acc =>
    let mcur := (dsn.module? m.name).getD m
    match create_control_registers_probes dsn mcur with
    | .error e => .error e
    | .ok (m', names) =>
      pullProbesFold (dsn.updateModule m') ms (acc ++ [(m'.name, names)])

/-- `ControlRegistersProbesPass::execute` (lines 132-175): selection
check, dependency orderer, then the per-module worker in sorted order.
Returns the processing order, the final design, and the created names. -/
def executePullProbes (d : Design) (selected : List Module) :
    Except String (List Module × Design × List (String × List String)) :=
  if selected.isEmpty then .error "Can't operate on an empty selection!"
  else
    match buildTopoFor d selected with
    | none => .error "model: worklist fuel exhausted"
    | some ts =>
      match topoSort ts.db ts.edges with
      | none => .error "Recursive modules are not supported by control_registers_probes."
      | some sorted =>
        match pullProbesFold d sorted [] with
        | .error e => .error e
        | .ok (d', acc) => .ok (sorted, d', acc)

/-! ## Concrete fixture designs (used by witnesses and counterexamples) -/

/-- Leaf module of the three-level chain. -/
def chainC : Module := { name := "\\C", wires := [], cells := [], connections := [] }

/-- An instance cell of type B. -/
def instCellB : Cell :=
  { name := "\\ib", nameIdx := 2, type := "\\B", connections := [],
    inputPorts := [], outputPorts := [] }

/-- An instance cell of type C. -/
def instCellC : Cell :=
  { name := "\\ic", nameIdx := 1, type := "\\C", connections := [],
    inputPorts := [], outputPorts := [] }

/-- An instance cell of type A. -/
def instCellA : Cell :=
  { name := "\\ia", nameIdx := 3, type := "\\A", connections := [],
    inputPorts := [], outputPorts := [] }

/-- Middle module: B instantiates C. -/
def chainB : Module := { name := "\\B", wires := [], cells := [instCellC], connections := [] }

/-- Top module: A instantiates B. -/
def chainA : Module := { name := "\\A", wires := [], cells := [instCellB], connections := [] }

/-- The A→B→C chain design. -/
def dChain : Design := ⟨[chainA, chainB, chainC]⟩

/-- B of the recursive pair: instantiates A. -/
def cycB : Module := { name := "\\B", wires := [], cells := [instCellA], connections := [] }

/-- A of the recursive pair: instantiates B. -/
def cycA : Module := { name := "\\A", wires := [], cells := [instCellB], connections := [] }

/-- The mutually recursive design. -/
def dCyc : Design := ⟨[cycA, cycB]⟩

/-- Wires of the reset-skip scenario of spec §8. -/
def wDataIn : WireRef := ⟨"\\data_in", 1⟩

/-- The intermediate wire between the two selectors. -/
def wMid : WireRef := ⟨"\\mid", 1⟩

/-- The reset-named select line. -/
def wRstz : WireRef := ⟨"\\rstz_ctrl", 1⟩

/-- The genuine select line. -/
def wMode : WireRef := ⟨"\\mode_sel", 1⟩

/-- Output of the second selector. -/
def wY2 : WireRef := ⟨"\\y2", 1⟩

/-- Selector whose select line is reset-named. -/
def sel1 : Cell :=
  { name := "\\sel1", nameIdx := 10, type := "$mux",
    connections := [("\\A", wholeSpec wDataIn), ("\\S", wholeSpec wRstz),
                    ("\\Y", wholeSpec wMid)],
    inputPorts := ["\\A", "\\B", "\\S"], outputPorts := ["\\Y"] }

/-- Selector with the genuine select line. -/
def sel2 : Cell :=
  { name := "\\sel2", nameIdx := 11, type := "$mux",
    connections := [("\\A", wholeSpec wMid), ("\\S", wholeSpec wMode),
                    ("\\Y", wholeSpec wY2)],
    inputPorts := ["\\A", "\\B", "\\S"], outputPorts := ["\\Y"] }

/-- The module of the reset-skip scenario. -/
def modM : Module :=
  { name := "\\M",
    wires := [⟨"\\data_in", 1, false, false, 0, []⟩, ⟨"\\mid", 1, false, false, 0, []⟩,
              ⟨"\\rstz_ctrl", 1, false, false, 0, []⟩, ⟨"\\mode_sel", 1, false, false, 0, []⟩,
              ⟨"\\y2", 1, false, false, 0, []⟩],
    cells := [sel1, sel2], connections := [] }

/-- Single-module design of the reset-skip scenario. -/
def dM : Design := ⟨[modM]⟩

/-- Wires of the unguarded-select crash scenario. -/
def wDin : WireRef := ⟨"\\din", 1⟩

/-- A two-bit wire whose low bit drives the select port. -/
def wSbig : WireRef := ⟨"\\sbig", 2⟩

/-- Output of the ill-connected selector. -/
def wYc : WireRef := ⟨"\\yc", 1⟩

/-- A selector whose select port is a one-bit range of a two-bit wire. -/
def badMux : Cell :=
  { name := "\\bm", nameIdx := 12, type := "$mux",
    connections := [("\\A", wholeSpec wDin), ("\\S", ⟨[⟨some wSbig, 0, 1⟩]⟩),
                    ("\\Y", wholeSpec wYc)],
    inputPorts := ["\\A", "\\B", "\\S"], outputPorts := ["\\Y"] }

/-- Module hosting the ill-connected selector. -/
def modBad : Module :=
  { name := "\\Bad",
    wires := [⟨"\\din", 1, false, false, 0, []⟩, ⟨"\\sbig", 2, false, false, 0, []⟩,
              ⟨"\\yc", 1, false, false, 0, []⟩],
    cells := [badMux], connections := [] }

/-- Single-module design with the ill-connected selector. -/
def dBad : Design := ⟨[modBad]⟩

/-- First wire of the combinational feedback loop. -/
def wFa : WireRef := ⟨"\\fa", 1⟩

/-- Second wire of the combinational feedback loop. -/
def wFb : WireRef := ⟨"\\fb", 1⟩

/-- Inverter from fa to fb. -/
def invCell1 : Cell :=
  { name := "\\inv1", nameIdx := 13, type := "$not",
    connections := [("\\A", wholeSpec wFa), ("\\Y", wholeSpec wFb)],
    inputPorts := ["\\A"], outputPorts := ["\\Y"] }

/-- Inverter from fb back to fa. -/
def invCell2 : Cell :=
  { name := "\\inv2", nameIdx := 14, type := "$not",
    connections := [("\\A", wholeSpec wFb), ("\\Y", wholeSpec wFa)],
    inputPorts := ["\\A"], outputPorts := ["\\Y"] }

/-- Module with a combinational cycle through two non-selector cells. -/
def modF : Module :=
  { name := "\\F",
    wires := [⟨"\\fa", 1, false, false, 0, []⟩, ⟨"\\fb", 1, false, false, 0, []⟩],
    cells := [invCell1, invCell2], connections := [] }

/-- Single-module design with the combinational cycle. -/
def dF : Design := ⟨[modF]⟩

/-- Leaf module doubly instantiated (parent-map fixture). -/
def pmC : Module := { name := "\\C2", wires := [], cells := [], connections := [] }

/-- First instantiating cell of the parent-map fixture. -/
def pmCell1 : Cell :=
  { name := "\\i1", nameIdx := 20, type := "\\C2", connections := [],
    inputPorts := [], outputPorts := [] }

/-- Second instantiating cell of the parent-map fixture. -/
def pmCell2 : Cell :=
  { name := "\\i2", nameIdx := 21, type := "\\C2", connections := [],
    inputPorts := [], outputPorts := [] }

/-- First (earlier discovered) instantiating module. -/
def pmA : Module := { name := "\\A2", wires := [], cells := [pmCell1], connections := [] }

/-- Second (later discovered) instantiating module. -/
def pmB : Module := { name := "\\B2", wires := [], cells := [pmCell2], connections := [] }

/-- Design of the parent-map fixture. -/
def dPm : Design := ⟨[pmA, pmB, pmC]⟩

/-- A tracked register cell with an eight-bit output. -/
def regCell : Cell :=
  { name := "\\r1", nameIdx := 7, type := "$dff",
    connections := [("\\Q", wholeSpec ⟨"\\q8", 8⟩)],
    inputPorts := ["\\D"], outputPorts := ["\\Q"], attrs := ["regstate_cell"] }

/-- Module hosting the tracked register. -/
def modP : Module :=
  { name := "\\P", wires := [⟨"\\q8", 8, false, false, 0, []⟩],
    cells := [regCell], connections := [] }

/-- Single-module design of the probe-naming fixture. -/
def dP : Design := ⟨[modP]⟩

/-- chainC after probe pulling: only the idempotence marker is added. -/
def chainCdone : Module := { chainC with attrs := ["regstate_cells_probes"] }

/-- chainB after probe pulling. -/
def chainBdone : Module := { chainB with attrs := ["regstate_cells_probes"] }

/-- chainA after probe pulling. -/
def chainAdone : Module := { chainA with attrs := ["regstate_cells_probes"] }

/-- The chain design after probe pulling. -/
def dChainOut : Design := ⟨[chainAdone, chainBdone, chainCdone]⟩

/-- Names created per module on the chain design (none: no registers). -/
def accChain : List (String × List String) := [("\\C", []), ("\\B", []), ("\\A", [])]

/-- The probe wire name created for the register fixture. -/
def probeName8 : String := "\\crtlreg_prbsig7WIRE0BITS0_8_"

/-- The probe wire created for the register fixture. -/
def probeWire8 : Wire :=
  { name := probeName8, width := 8, port_output := true, port_id := 1,
    attrs := ["regstate_cell_wire"] }

/-- The register-fixture module right after its register cell is processed. -/
def modPmid : Module :=
  { modP with
    wires := [⟨"\\q8", 8, false, false, 0, []⟩, probeWire8],
    connections := [(wholeSpec ⟨probeName8, 8⟩, wholeSpec ⟨"\\q8", 8⟩)] }

/-- The register-fixture module after the full worker run. -/
def modPdone : Module := { modPmid with attrs := ["regstate_cells_probes"] }

/-- The register-fixture design after probe pulling. -/
def dPout : Design := ⟨[modPdone]⟩

/-- Names created per module on the register fixture. -/
def accP : List (String × List String) := [("\\P", [probeName8])]

/-! ## Derived definitions used by the theorems -/

/-- One of the module's cells instantiates `child`. -/
def instantiatesB (d : Design) (child m : Module) : Bool :=
  m.cells.any (fun c => decide (d.module? c.type = some child))

/-- The deterministic name scheme of the register-probe branch: sanitized
names indexed by the wire-backed chunks of the register output, as a pure
function of the owning cell's interned name index, the running chunk
index, and each chunk's bit offsets. -/
def probeNamesFrom (cellIdx : Nat) : List SigChunk → Nat → List String
  | [], _ => []
  | ch :: chs, k =>
    match ch.wire with
    | none => probeNamesFrom cellIdx chs k
    | some _ =>
      sanitize_wire_name (probeChunkName cellIdx k ch.offset ch.width) ::
        probeNamesFrom cellIdx chs (k + 1)

/-- Every signal the tracer can push while expanding a node of module `m`:
the cells' port signals, the left-hand sides of direct connections, and
whole-wire signals of the module's wires. -/
def moduleSigs (m : Module) : List SigSpec :=
  (m.cells.map (fun c => c.connections.map Prod.snd)).flatten ++
    m.connections.map Prod.fst ++ m.wires.map (fun w => wholeSpec w.ref)

/-- A Search Node drawn from the design: its module is a design module and
its signal is one of that module's signals. -/
def nodeInDesign (d : Design) (p : Pair) : Prop :=
  p.1 ∈ d.modules ∧ p.2 ∈ moduleSigs p.1

/-- The number of design Search Nodes not yet explored (the termination
measure of the worklist loop). -/
def remainingNodes (d : Design) (visited : List Pair) : Nat :=
  (d.modules.flatMap (fun m => (moduleSigs m).map (fun s => (m, s)))).countP
    (fun x => decide (x ∉ visited))

/-- The number of design modules not yet in the orderer's database (the
termination measure of the orderer's worklist loop). -/
def remainingModules (d : Design) (db : List Module) : Nat :=
  d.modules.countP (fun m => decide (m ∉ db))

/-! # Lemmas

## The module-to-parent map (claim C2) -/

theorem mapLookup_mapInsert_self (k v : Module) (pmap : List (Module × Module)) :
    mapLookup (mapInsert k v pmap) k = some v := by
  induction pmap with
  | nil => simp [mapInsert, mapLookup, List.find?]
  | cons kv rest ih =>
    obtain ⟨k', v'⟩ := kv
    by_cases h : k' = k
    · simp [mapInsert, h, mapLookup, List.find?]
    · simpa [mapInsert, h, mapLookup, List.find?] using ih

theorem mapLookup_mapInsert_ne (k v x : Module) (pmap : List (Module × Module))
    (hx : x ≠ k) : mapLookup (mapInsert k v pmap) x = mapLookup pmap x := by
  have hkx : k ≠ x := Ne.symm hx
  induction pmap with
  | nil => simp [mapInsert, mapLookup, List.find?, hkx]
  | cons kv rest ih =>
    obtain ⟨k', v'⟩ := kv
    by_cases h : k' = k
    · subst h
      simp [mapInsert, mapLookup, List.find?, hkx]
    · by_cases h2 : k' = x
      · subst h2
        simp [mapInsert, h, mapLookup, List.find?]
      · simpa [mapInsert, h, mapLookup, List.find?, h2] using ih

theorem initParentCells_lookup (d : Design) (parent child : Module) :
    ∀ (cells : List Cell) (pmap : List (Module × Module)),
    mapLookup (initParentCells d parent cells pmap) child =
      if cells.any (fun c => decide (d.module? c.type = some child)) then some parent
      else mapLookup pmap child := by
  intro cells
  induction cells with
  | nil => intro pmap; simp [initParentCells]
  | cons c cs ih =>
    intro pmap
    simp only [initParentCells]
    cases hm : d.module? c.type with
    | none =>
      rw [ih]
      simp [List.any_cons, hm]
    | some ch =>
      rw [ih]
      by_cases hch : ch = child
      · subst hch
        by_cases hcs : cs.any (fun c => decide (d.module? c.type = some ch)) = true
        · simp [List.any_cons, hm, hcs]
        · simp [List.any_cons, hm, hcs, mapLookup_mapInsert_self]
      · have hne : ¬ (d.module? c.type = some child) := by
          rw [hm]; intro hcon; exact hch (Option.some.inj hcon)
        by_cases hcs : cs.any (fun c => decide (d.module? c.type = some child)) = true
        · simp [List.any_cons, hm, hcs, hne, hch]
        · simp [List.any_cons, hm, hcs, hne, hch,
            mapLookup_mapInsert_ne ch parent child pmap (fun h => hch h.symm)]

theorem findq_append {α : Type} (p : α → Bool) :
    ∀ (l₁ l₂ : List α),
    (l₁ ++ l₂).find? p =
      match l₁.find? p with
      | some a => some a
      | none => l₂.find? p := by
  intro l₁ l₂
  induction l₁ with
  | nil => simp
  | cons a as ih => by_cases h : p a <;> simp [List.find?, h, ih]

theorem initFold_lookup (d : Design) (child : Module) :
    ∀ (mods : List Module) (pmap : List (Module × Module)),
    mapLookup (mods.foldl (fun pm m => initParentCells d m m.cells pm) pmap) child =
      match mods.reverse.find? (instantiatesB d child) with
      | some p => some p
      | none => mapLookup pmap child := by
  intro mods
  induction mods with
  | nil => intro pmap; simp
  | cons m ms ih =>
    intro pmap
    simp only [List.foldl_cons, List.reverse_cons]
    rw [ih, findq_append]
    cases hms : ms.reverse.find? (instantiatesB d child) with
    | some p => simp
    | none =>
      simp only []
      rw [initParentCells_lookup]
      by_cases hm : instantiatesB d child m = true
      · simp only [instantiatesB] at hm
        simp [List.find?, instantiatesB, hm]
      · simp only [instantiatesB] at hm
        simp only [Bool.not_eq_true] at hm
        simp [List.find?, instantiatesB, hm]

/-- The binding the map construction records for an instantiated module is
the parent discovered last (the first in reverse discovery order). -/
theorem init_map_records_last (d : Design) (mods : List Module) (child : Module) :
    mapLookup (initialize_module_to_parent_map d mods) child =
      mods.reverse.find? (instantiatesB d child) := by
  rw [initialize_module_to_parent_map, initFold_lookup]
  cases h : mods.reverse.find? (instantiatesB d child) with
  | some p => rfl
  | none => simp [mapLookup]

/-! ## Sanitized probe names (claim C4) -/

theorem sanitize_toList (s : String) :
    (sanitize_wire_name s).toList = '\\' :: s.toList.filter (fun c => !bannedChar c) := rfl

theorem sanitize_tail_unbanned (s : String) :
    ∀ c ∈ (sanitize_wire_name s).toList.tail, bannedChar c = false := by
  intro c hc
  rw [sanitize_toList] at hc
  simp only [List.tail_cons] at hc
  have := List.of_mem_filter hc
  simpa using this

theorem pullChunks_names (cell : Cell) :
    ∀ (chs : List SigChunk) (k : Nat) (m : Module) (names : List String)
      (mo : Module) (ns : List String),
    pullChunks cell chs k m names = .ok (mo, ns) →
    ns = names ++ probeNamesFrom cell.nameIdx chs k := by
  intro chs
  induction chs with
  | nil =>
    intro k m names mo ns h
    simp only [pullChunks, Except.ok.injEq, Prod.mk.injEq] at h
    simp [probeNamesFrom, ← h.2]
  | cons ch chs ih =>
    intro k m names mo ns h
    simp only [pullChunks] at h
    cases hw : ch.wire with
    | none =>
      rw [hw] at h
      rw [probeNamesFrom, hw]
      exact ih _ _ _ _ _ h
    | some wr =>
      rw [hw] at h
      rw [probeNamesFrom, hw]
      by_cases hex :
          (m.wire? (sanitize_wire_name (probeChunkName cell.nameIdx k ch.offset ch.width))).isSome
      · rw [if_pos hex] at h; cases h
      · rw [if_neg hex] at h
        simpa [List.append_assoc] using ih _ _ _ _ _ h

theorem pullChunks_sanitized (cell : Cell) :
    ∀ (chs : List SigChunk) (k : Nat) (m : Module) (names : List String)
      (mo : Module) (ns : List String),
    pullChunks cell chs k m names = .ok (mo, ns) →
    ∀ n ∈ ns, n ∈ names ∨ ∃ raw, n = sanitize_wire_name raw := by
  intro chs
  induction chs with
  | nil =>
    intro k m names mo ns h n hn
    simp only [pullChunks, Except.ok.injEq, Prod.mk.injEq] at h
    rw [← h.2] at hn
    exact Or.inl hn
  | cons ch chs ih =>
    intro k m names mo ns h n hn
    simp only [pullChunks] at h
    cases hw : ch.wire with
    | none =>
      rw [hw] at h
      exact ih _ _ _ _ _ h n hn
    | some wr =>
      rw [hw] at h
      by_cases hex :
          (m.wire? (sanitize_wire_name (probeChunkName cell.nameIdx k ch.offset ch.width))).isSome
      · rw [if_pos hex] at h; cases h
      · rw [if_neg hex] at h
        rcases ih _ _ _ _ _ h n hn with hmem | hraw
        · rcases List.mem_append.mp hmem with h1 | h2
          · exact Or.inl h1
          · exact Or.inr ⟨_, (List.mem_singleton.mp h2)⟩
        · exact Or.inr hraw

theorem pullSubWires_sanitized (cell : Cell) :
    ∀ (sws : List Wire) (m : Module) (names : List String)
      (mo : Module) (ns : List String),
    pullSubWires cell sws m names = .ok (mo, ns) →
    ∀ n ∈ ns, n ∈ names ∨ ∃ raw, n = sanitize_wire_name raw := by
  intro sws
  induction sws with
  | nil =>
    intro m names mo ns h n hn
    simp only [pullSubWires, Except.ok.injEq, Prod.mk.injEq] at h
    rw [← h.2] at hn
    exact Or.inl hn
  | cons sw sws ih =>
    intro m names mo ns h n hn
    simp only [pullSubWires] at h
    by_cases ha : sw.attrs.contains "regstate_cell_wire"
    · rw [if_pos ha] at h
      by_cases hex :
          (m.wire? (sanitize_wire_name (subProbeName sw.name cell.name sw.port_id))).isSome
      · rw [if_pos hex] at h; cases h
      · rw [if_neg hex] at h
        rcases ih _ _ _ _ h n hn with hmem | hraw
        · rcases List.mem_append.mp hmem with h1 | h2
          · exact Or.inl h1
          · exact Or.inr ⟨_, (List.mem_singleton.mp h2)⟩
        · exact Or.inr hraw
    · rw [if_neg ha] at h
      exact ih _ _ _ _ h n hn

theorem pullCell_sanitized (d : Design) (m : Module) (cell : Cell)
    (mo : Module) (ns : List String)
    (h : pullCell d m cell = .ok (mo, ns)) :
    ∀ n ∈ ns, ∃ raw, n = sanitize_wire_name raw := by
  intro n hn
  unfold pullCell at h
  by_cases hattr : cell.hasAttr "regstate_cell"
  · rw [if_pos hattr] at h
    cases hq : cell.getPort "\\Q" with
    | none => rw [hq] at h; cases h
    | some q =>
      rw [hq] at h
      rcases pullChunks_sanitized cell q.chunks 0 m [] mo ns h n hn with hmem | hraw
      · cases hmem
      · exact hraw
  · rw [if_neg hattr] at h
    cases hsub : d.module? cell.type with
    | none =>
      rw [hsub] at h
      simp only [Except.ok.injEq, Prod.mk.injEq] at h
      rw [← h.2] at hn
      cases hn
    | some submod =>
      rw [hsub] at h
      rcases pullSubWires_sanitized cell submod.wires m [] mo ns h n hn with hmem | hraw
      · cases hmem
      · exact hraw

theorem pullCellsLoop_sanitized (d : Design) :
    ∀ (cs : List Cell) (m : Module) (names : List String)
      (mo : Module) (ns : List String),
    pullCellsLoop d cs m names = .ok (mo, ns) →
    ∀ n ∈ ns, n ∈ names ∨ ∃ raw, n = sanitize_wire_name raw := by
  intro cs
  induction cs with
  | nil =>
    intro m names mo ns h n hn
    simp only [pullCellsLoop, Except.ok.injEq, Prod.mk.injEq] at h
    rw [← h.2] at hn
    exact Or.inl hn
  | cons cell cs ih =>
    intro m names mo ns h n hn
    simp only [pullCellsLoop] at h
    cases hc : pullCell d m cell with
    | error e => rw [hc] at h; cases h
    | ok r =>
      rw [hc] at h
      rcases ih _ _ _ _ h n hn with hmem | hraw
      · rcases List.mem_append.mp hmem with h1 | h2
        · exact Or.inl h1
        · exact Or.inr (pullCell_sanitized d m cell r.1 r.2 hc n h2)
      · exact Or.inr hraw

theorem create_probes_sanitized (d : Design) (m : Module)
    (mo : Module) (ns : List String)
    (h : create_control_registers_probes d m = .ok (mo, ns)) :
    ∀ n ∈ ns, ∃ raw, n = sanitize_wire_name raw := by
  intro n hn
  unfold create_control_registers_probes at h
  by_cases hp : m.hasProcesses
  · rw [if_pos hp] at h; cases h
  · rw [if_neg hp] at h
    cases hl : pullCellsLoop d m.cells m [] with
    | error e => rw [hl] at h; cases h
    | ok r =>
      rw [hl] at h
      simp only [Except.ok.injEq, Prod.mk.injEq] at h
      rw [← h.2] at hn
      rcases pullCellsLoop_sanitized d m.cells m [] r.1 r.2 hl n hn with hmem | hraw
      · cases hmem
      · exact hraw

theorem pullProbesFold_sanitized (dsn : Design) :
    ∀ (ms : List Module) (acc : List (String × List String))
      (dout : Design) (accOut : List (String × List String)),
    pullProbesFold dsn ms acc = .ok (dout, accOut) →
    (∀ e ∈ acc, ∀ n ∈ e.2, ∃ raw, n = sanitize_wire_name raw) →
    ∀ e ∈ accOut, ∀ n ∈ e.2, ∃ raw, n = sanitize_wire_name raw := by
  intro ms
  induction ms generalizing dsn with
  | nil =>
    intro acc dout accOut h hacc
    simp only [pullProbesFold, Except.ok.injEq, Prod.mk.injEq] at h
    rw [← h.2]
    exact hacc
  | cons m ms ih =>
    intro acc dout accOut h hacc
    simp only [pullProbesFold] at h
    cases hc : create_control_registers_probes dsn ((dsn.module? m.name).getD m) with
    | error e => rw [hc] at h; cases h
    | ok r =>
      rw [hc] at h
      refine ih _ _ _ _ h ?_
      intro e he n hn
      rcases List.mem_append.mp he with h1 | h2
      · exact hacc e h1 n hn
      · rw [List.mem_singleton.mp h2] at hn
        exact create_probes_sanitized dsn _ r.1 r.2 hc n hn

theorem executePullProbes_ok_inv (d : Design) (selected sorted : List Module)
    (dout : Design) (acc : List (String × List String))
    (h : executePullProbes d selected = .ok (sorted, dout, acc)) :
    selected.isEmpty = false ∧ ∃ ts, buildTopoFor d selected = some ts ∧
      topoSort ts.db ts.edges = some sorted ∧
      pullProbesFold d sorted [] = .ok (dout, acc) := by
  unfold executePullProbes at h
  split at h
  · cases h
  next hsel =>
    refine ⟨by simpa using hsel, ?_⟩
    split at h
    · cases h
    next ts hts =>
      split at h
      · cases h
      next so hsort =>
        split at h
        · cases h
        next dx accx hf =>
          simp only [Except.ok.injEq, Prod.mk.injEq] at h
          obtain ⟨h1, h2, h3⟩ := h
          subst h1; subst h2; subst h3
          exact ⟨ts, hts, hsort, hf⟩

theorem executePullProbes_sanitized (d : Design) (selected : List Module)
    (sorted : List Module) (dout : Design) (acc : List (String × List String))
    (h : executePullProbes d selected = .ok (sorted, dout, acc)) :
    ∀ e ∈ acc, ∀ n ∈ e.2,
      n.toList.head? = some '\\' ∧ ∀ c ∈ n.toList.tail, bannedChar c = false := by
  intro e he n hn
  obtain ⟨-, ts, -, -, hf⟩ := executePullProbes_ok_inv d selected sorted dout acc h
  have hsan := pullProbesFold_sanitized d sorted [] dout acc hf
    (by intro e he; cases he) e he n hn
  obtain ⟨raw, rfl⟩ := hsan
  refine ⟨?_, sanitize_tail_unbanned raw⟩
  rw [sanitize_toList]
  rfl

/-! ## Early returns of the expansion phases (claims C1, C9, C10)

Phases 2-5 can only abort at their own crash sites; a `found` result can
only come from the selector check of phase 1. -/

theorem as_wire_some_is_wire (s : SigSpec) (wr : WireRef)
    (h : s.as_wire = some wr) : s.is_wire = true := by
  obtain ⟨chunks⟩ := s
  simp only [SigSpec.as_wire, SigSpec.is_wire] at h ⊢
  match chunks with
  | [] => cases h
  | [c] =>
    match hw : c.wire with
    | some wrx =>
      simp only [hw] at h ⊢
      by_cases hwd : (c.width == wrx.wwidth) = true
      · exact hwd
      · rw [if_neg hwd] at h; cases h
    | none => simp only [hw] at h; cases h
  | a :: b :: rest => cases h

theorem pushOutputs_ret (m : Module) (cell : Cell) :
    ∀ (ps : List (String × SigSpec)) (q : List Pair) (r : TraceResult),
    pushOutputs m cell ps q = .ret r → r = .crash .fanoutLog := by
  intro ps
  induction ps with
  | nil => intro q r h; cases h
  | cons p ps ih =>
    intro q r h
    obtain ⟨oname, osig⟩ := p
    simp only [pushOutputs] at h
    by_cases ho : cell.outputPorts.contains oname = true
    · rw [if_pos ho] at h
      cases hw : osig.as_wire with
      | none => rw [hw] at h; exact (PhaseOut.ret.inj h).symm
      | some wr => rw [hw] at h; exact ih _ _ h
    · rw [if_neg ho] at h; exact ih _ _ h

theorem phase2Ports_ret (m : Module) (w : WireRef) (cell : Cell) :
    ∀ (ps : List (String × SigSpec)) (q : List Pair) (r : TraceResult),
    phase2Ports m w cell ps q = .ret r → r = .crash .fanoutLog := by
  intro ps
  induction ps with
  | nil => intro q r h; cases h
  | cons p ps ih =>
    intro q r h
    obtain ⟨pname, psig⟩ := p
    simp only [phase2Ports] at h
    by_cases hm : sigMatchW psig w.name = true
    · rw [if_pos hm] at h
      by_cases hi : cell.inputPorts.contains pname = true
      · rw [if_pos hi] at h
        cases hp : pushOutputs m cell cell.connections q with
        | ret r2 =>
          rw [hp] at h
          exact (PhaseOut.ret.inj h) ▸ pushOutputs_ret m cell _ _ _ hp
        | cont q2 => rw [hp] at h; exact ih _ _ h
      · rw [if_neg hi] at h; exact ih _ _ h
    · rw [if_neg hm] at h; exact ih _ _ h

theorem phase2Cells_ret (d : Design) (m : Module) (w : WireRef) :
    ∀ (cs : List Cell) (q : List Pair) (r : TraceResult),
    phase2Cells d m w cs q = .ret r → r = .crash .fanoutLog := by
  intro cs
  induction cs with
  | nil => intro q r h; cases h
  | cons cell cs ih =>
    intro q r h
    simp only [phase2Cells] at h
    by_cases hm : (d.module? cell.type).isSome = true
    · rw [if_pos hm] at h; exact ih _ _ h
    · rw [if_neg hm] at h
      cases hp : phase2Ports m w cell cell.connections q with
      | ret r2 =>
        rw [hp] at h
        exact (PhaseOut.ret.inj h) ▸ phase2Ports_ret m w cell _ _ _ hp
      | cont q2 => rw [hp] at h; exact ih _ _ h

theorem phase3Conns_ret (m : Module) (w : WireRef) :
    ∀ (cs : List (SigSpec × SigSpec)) (q : List Pair) (r : TraceResult),
    phase3Conns m w cs q = .ret r → r = .crash .connLog := by
  intro cs
  induction cs with
  | nil => intro q r h; cases h
  | cons c cs ih =>
    intro q r h
    obtain ⟨c1, c2⟩ := c
    simp only [phase3Conns] at h
    by_cases hm : sigMatchW c2 w.name = true
    · rw [if_pos hm] at h
      cases hw : c1.as_wire with
      | none => rw [hw] at h; exact (PhaseOut.ret.inj h).symm
      | some wr => rw [hw] at h; exact ih _ _ h
    · rw [if_neg hm] at h; exact ih _ _ h

theorem phase4Ports_ret (m : Module) (w : WireRef) (submod : Module) (cell : Cell) :
    ∀ (ps : List (String × SigSpec)) (q : List Pair) (r : TraceResult),
    phase4Ports m w submod cell ps q = .ret r → r = .crash .submodWireMissing := by
  intro ps
  induction ps with
  | nil => intro q r h; cases h
  | cons p ps ih =>
    intro q r h
    obtain ⟨pname, psig⟩ := p
    simp only [phase4Ports] at h
    by_cases hm : sigMatchW psig w.name = true
    · rw [if_pos hm] at h
      by_cases ho : cell.outputPorts.contains pname = true
      · rw [if_pos ho] at h; exact ih _ _ h
      · rw [if_neg ho] at h
        cases hw : submod.wire? pname with
        | none => rw [hw] at h; exact (PhaseOut.ret.inj h).symm
        | some sw => rw [hw] at h; exact ih _ _ h
    · rw [if_neg hm] at h; exact ih _ _ h

theorem phase4Cells_ret (d : Design) (m : Module) (w : WireRef) :
    ∀ (cs : List Cell) (q : List Pair) (r : TraceResult),
    phase4Cells d m w cs q = .ret r → r = .crash .submodWireMissing := by
  intro cs
  induction cs with
  | nil => intro q r h; cases h
  | cons cell cs ih =>
    intro q r h
    simp only [phase4Cells] at h
    split at h
    · exact ih _ _ h
    next submod hm =>
      split at h
      next r2 hp => exact (PhaseOut.ret.inj h) ▸ phase4Ports_ret m w submod cell _ _ _ hp
      next q2 hp => exact ih _ _ h

theorem phase5Ports_ret (parent : Module) (w : WireRef) (cell : Cell) :
    ∀ (ps : List (String × SigSpec)) (q : List Pair) (r : TraceResult),
    phase5Ports parent w cell ps q = .ret r → r = .crash .ascentLog := by
  intro ps
  induction ps with
  | nil => intro q r h; cases h
  | cons p ps ih =>
    intro q r h
    obtain ⟨pname, psig⟩ := p
    simp only [phase5Ports] at h
    by_cases hm : (pname == w.name) = true
    · rw [if_pos hm] at h
      cases hw : psig.as_wire with
      | none => rw [hw] at h; exact (PhaseOut.ret.inj h).symm
      | some wr => rw [hw] at h; exact ih _ _ h
    · rw [if_neg hm] at h; exact ih _ _ h

theorem phase5Cells_ret (d : Design) (m : Module) (w : WireRef) (parent : Module) :
    ∀ (cs : List Cell) (q : List Pair) (r : TraceResult),
    phase5Cells d m w parent cs q = .ret r → r = .crash .ascentLog := by
  intro cs
  induction cs with
  | nil => intro q r h; cases h
  | cons cell cs ih =>
    intro q r h
    simp only [phase5Cells] at h
    by_cases hm : d.module? cell.type = some m
    · rw [if_pos hm] at h
      cases hp : phase5Ports parent w cell cell.connections q with
      | ret r2 =>
        rw [hp] at h
        exact (PhaseOut.ret.inj h) ▸ phase5Ports_ret parent w cell _ _ _ hp
      | cont q2 => rw [hp] at h; exact ih _ _ h
    · rw [if_neg hm] at h; exact ih _ _ h

theorem phase5Wires_ret (d : Design) (pmap : List (Module × Module))
    (m : Module) (w : WireRef) :
    ∀ (ws : List Wire) (q : List Pair) (r : TraceResult),
    phase5Wires d pmap m w ws q = .ret r → r = .crash .ascentLog := by
  intro ws
  induction ws with
  | nil => intro q r h; cases h
  | cons wr ws ih =>
    intro q r h
    simp only [phase5Wires] at h
    by_cases hm : (wr.name == w.name) = true
    · rw [if_pos hm] at h
      split at h
      · exact ih _ _ h
      next parent hl =>
        split at h
        next r2 hp => exact (PhaseOut.ret.inj h) ▸ phase5Cells_ret d m w parent _ _ _ hp
        next q2 hp => exact ih _ _ h
    · rw [if_neg hm] at h; exact ih _ _ h

theorem phase1Ports_found (m : Module) (w : WireRef) (cell : Cell) :
    ∀ (ps : List (String × SigSpec)) (q : List Pair) (rn rm : String),
    phase1Ports m w cell ps q = .ret (.found rn rm) →
    cell.type = "$mux" ∧ ∃ s sw, cell.getPort "\\S" = some s ∧ s.as_wire = some sw ∧
      strContains sw.name "rstz" = false ∧
      rn = find_better_wirename m sw ∧ rm = m.name := by
  intro ps
  induction ps with
  | nil => intro q rn rm h; cases h
  | cons p ps ih =>
    intro q rn rm h
    obtain ⟨pname, psig⟩ := p
    simp only [phase1Ports] at h
    by_cases hmatch : muxDataMatch cell w.name pname psig = true
    · rw [if_pos hmatch] at h
      have htype : cell.type = "$mux" := by
        simp [muxDataMatch, Bool.and_eq_true] at hmatch
        exact hmatch.1.1
      by_cases hS : (pname == "\\S") = true
      · rw [if_pos hS] at h
        split at h
        · simp at h
        next y hy => exact ih _ _ _ h
      · rw [if_neg hS] at h
        split at h
        · simp at h
        next s hgs =>
          split at h
          · simp at h
          next sw hsw =>
            by_cases hrs : strContains sw.name "rstz" = true
            · rw [if_pos hrs] at h
              split at h
              · simp at h
              next y hy => exact ih _ _ _ h
            · rw [if_neg hrs] at h
              by_cases hiw : s.is_wire = true
              · rw [if_pos hiw] at h
                obtain ⟨h1, h2⟩ := TraceResult.found.inj (PhaseOut.ret.inj h)
                exact ⟨htype, s, sw, hgs, hsw, by simpa using hrs, h1.symm, h2.symm⟩
              · exact absurd (as_wire_some_is_wire s sw hsw) hiw
    · rw [if_neg hmatch] at h; exact ih _ _ _ h

theorem phase1Ports_rstz_pushback (m : Module) (w : WireRef) (cell : Cell)
    (pname : String) (psig : SigSpec) (ps : List (String × SigSpec)) (q : List Pair)
    (s : SigSpec) (sw : WireRef) (y : SigSpec)
    (hmatch : muxDataMatch cell w.name pname psig = true)
    (hS : (pname == "\\S") = false)
    (hgs : cell.getPort "\\S" = some s)
    (hsw : s.as_wire = some sw)
    (hrs : strContains sw.name "rstz" = true)
    (hy : cell.getPort "\\Y" = some y) :
    phase1Ports m w cell ((pname, psig) :: ps) q =
      phase1Ports m w cell ps (q ++ [(m, y)]) := by
  simp only [phase1Ports, hmatch, hS, hgs, hsw, hrs, hy, if_true, Bool.false_eq_true,
    if_false]

theorem phase1Cells_found (m : Module) (w : WireRef) :
    ∀ (cs : List Cell) (q : List Pair) (rn rm : String),
    phase1Cells m w cs q = .ret (.found rn rm) →
    ∃ cell, cell ∈ cs ∧ cell.type = "$mux" ∧
      ∃ s sw, cell.getPort "\\S" = some s ∧ s.as_wire = some sw ∧
        strContains sw.name "rstz" = false ∧
        rn = find_better_wirename m sw ∧ rm = m.name := by
  intro cs
  induction cs with
  | nil => intro q rn rm h; cases h
  | cons cell cs ih =>
    intro q rn rm h
    simp only [phase1Cells] at h
    split at h
    next r2 hp =>
      have hr2 : r2 = .found rn rm := PhaseOut.ret.inj h
      rw [hr2] at hp
      obtain ⟨ht, s, sw, hx⟩ := phase1Ports_found m w cell _ _ _ _ hp
      exact ⟨cell, List.mem_cons_self _ _, ht, s, sw, hx⟩
    next q2 hp =>
      obtain ⟨c2, hc2, rest⟩ := ih _ _ _ h
      exact ⟨c2, List.mem_cons_of_mem _ hc2, rest⟩

theorem expandChunks_found (d : Design) (pmap : List (Module × Module)) (m : Module) :
    ∀ (chunks : List SigChunk) (q : List Pair) (rn rm : String),
    expandChunks d pmap m chunks q = .ret (.found rn rm) →
    ∃ cell, cell ∈ m.cells ∧ cell.type = "$mux" ∧
      ∃ s sw, cell.getPort "\\S" = some s ∧ s.as_wire = some sw ∧
        strContains sw.name "rstz" = false ∧
        rn = find_better_wirename m sw ∧ rm = m.name := by
  intro chunks
  induction chunks with
  | nil => intro q rn rm h; cases h
  | cons c cs ih =>
    intro q rn rm h
    simp only [expandChunks] at h
    split at h
    · exact ih _ _ _ h
    next w hw =>
      split at h
      next r1 hp1 =>
        have : r1 = .found rn rm := PhaseOut.ret.inj h
        rw [this] at hp1
        exact phase1Cells_found m w _ _ _ _ hp1
      next q1 hp1 =>
        split at h
        next r2 hp2 =>
          have h2 := phase2Cells_ret d m w _ _ _ hp2
          rw [h2] at hp2
          have : r2 = .found rn rm := PhaseOut.ret.inj h
          rw [this] at h2
          cases h2
        next q2 hp2 =>
          split at h
          next r3 hp3 =>
            have h3 := phase3Conns_ret m w _ _ _ hp3
            have : r3 = .found rn rm := PhaseOut.ret.inj h
            rw [this] at h3
            cases h3
          next q3 hp3 =>
            split at h
            next r4 hp4 =>
              have h4 := phase4Cells_ret d m w _ _ _ hp4
              have : r4 = .found rn rm := PhaseOut.ret.inj h
              rw [this] at h4
              cases h4
            next q4 hp4 =>
              split at h
              next r5 hp5 =>
                have h5 := phase5Wires_ret d pmap m w _ _ _ hp5
                have : r5 = .found rn rm := PhaseOut.ret.inj h
                rw [this] at h5
                cases h5
              next q5 hp5 => exact ih _ _ _ h

theorem findNextMuxLoop_found :
    ∀ (fuel : Nat) (st : LoopState) (rn rm : String),
    (findNextMuxLoop fuel st).result = .found rn rm →
    ∃ mm cell, cell ∈ mm.cells ∧ cell.type = "$mux" ∧
      ∃ s sw, cell.getPort "\\S" = some s ∧ s.as_wire = some sw ∧
        strContains sw.name "rstz" = false ∧
        rn = find_better_wirename mm sw ∧ rm = mm.name := by
  intro fuel
  induction fuel with
  | zero => intro st rn rm h; cases h
  | succ n ih =>
    intro st rn rm h
    simp only [findNextMuxLoop] at h
    split at h
    · cases h
    next p rest hq =>
      by_cases hv : p ∈ st.visited
      · rw [if_pos hv] at h
        split at h
        · cases h
        · exact ih _ _ _ h
      · rw [if_neg hv] at h
        by_cases hpr : p.1.hasProcesses = true
        · rw [if_pos hpr] at h; cases h
        · rw [if_neg hpr] at h
          split at h
          next r hr =>
            simp only at h
            rw [h] at hr
            obtain ⟨cell, hc, rest2⟩ := expandChunks_found st.design st.pmap p.1 _ _ _ _ hr
            exact ⟨p.1, cell, hc, rest2⟩
          next q2 hr =>
            simp only at h
            exact ih _ _ _ h

/-! ## The selector matching guard (claim C9) -/

theorem as_wire_eq_some_iff (s : SigSpec) (wr : WireRef) :
    s.as_wire = some wr ↔ ∃ off, s.chunks = [⟨some wr, off, wr.wwidth⟩] := by
  obtain ⟨chunks⟩ := s
  simp only [SigSpec.as_wire]
  match chunks with
  | [] => simp
  | [c] =>
    obtain ⟨cw, coff, cwid⟩ := c
    cases cw with
    | none => simp
    | some wr2 =>
      simp only []
      by_cases h : (cwid == wr2.wwidth) = true
      · rw [if_pos h]
        rw [beq_iff_eq] at h
        subst h
        constructor
        · intro he
          obtain rfl := Option.some.inj he
          exact ⟨coff, rfl⟩
        · rintro ⟨off, he⟩
          simp only [List.cons.injEq, SigChunk.mk.injEq, Option.some.injEq] at he
          obtain ⟨⟨h1, h2, h3⟩, -⟩ := he
          rw [h1]
      · rw [if_neg h]
        constructor
        · intro he; cases he
        · rintro ⟨off, he⟩
          simp only [List.cons.injEq, SigChunk.mk.injEq, Option.some.injEq] at he
          obtain ⟨⟨h1, h2, h3⟩, -⟩ := he
          subst h1
          rw [h3] at h
          simp at h
  | a :: b :: rest =>
    simp only []
    constructor
    · intro he; cases he
    · rintro ⟨off, he⟩; cases he

theorem sigMatchW_iff (psig : SigSpec) (wname : String) :
    sigMatchW psig wname = true ↔
      ∃ wr off, psig.chunks = [⟨some wr, off, wr.wwidth⟩] ∧ wr.name = wname := by
  unfold sigMatchW
  constructor
  · intro h
    cases hw : psig.as_wire with
    | none => rw [hw] at h; cases h
    | some wr =>
      rw [hw] at h
      rw [beq_iff_eq] at h
      obtain ⟨off, hc⟩ := (as_wire_eq_some_iff psig wr).mp hw
      exact ⟨wr, off, hc, h⟩
  · rintro ⟨wr, off, hc, hn⟩
    have hw : psig.as_wire = some wr := (as_wire_eq_some_iff psig wr).mpr ⟨off, hc⟩
    rw [hw]
    exact beq_iff_eq.mpr hn

theorem muxDataMatch_iff (cell : Cell) (wname pname : String) (psig : SigSpec) :
    muxDataMatch cell wname pname psig = true ↔
      cell.type = "$mux" ∧ pname ∈ cell.inputPorts ∧
        ∃ wr off, psig.chunks = [⟨some wr, off, wr.wwidth⟩] ∧ wr.name = wname := by
  unfold muxDataMatch
  rw [Bool.and_eq_true, Bool.and_eq_true, beq_iff_eq, sigMatchW_iff,
    List.elem_iff]
  constructor
  · rintro ⟨⟨h1, h2⟩, h3⟩; exact ⟨h1, h3, h2⟩
  · rintro ⟨h1, h3, h2⟩; exact ⟨⟨h1, h2⟩, h3⟩

theorem muxDataMatch_bitrange_false (cell : Cell) (wname pname : String)
    (wr : WireRef) (off wd : Nat) (hwd : wd ≠ wr.wwidth) :
    muxDataMatch cell wname pname ⟨[⟨some wr, off, wd⟩]⟩ = false := by
  by_cases h : muxDataMatch cell wname pname ⟨[⟨some wr, off, wd⟩]⟩ = true
  · obtain ⟨-, -, wr2, off2, hc, -⟩ := (muxDataMatch_iff _ _ _ _).mp h
    simp only [SigSpec.mk.injEq] at hc
    simp only [List.cons.injEq, SigChunk.mk.injEq, Option.some.injEq] at hc
    obtain ⟨⟨h1, h2, h3⟩, -⟩ := hc
    subst h1
    exact absurd h3 hwd
  · simpa using h

theorem muxDataMatch_concat_false (cell : Cell) (wname pname : String)
    (c1 c2 : SigChunk) (rest : List SigChunk) :
    muxDataMatch cell wname pname ⟨c1 :: c2 :: rest⟩ = false := by
  by_cases h : muxDataMatch cell wname pname ⟨c1 :: c2 :: rest⟩ = true
  · obtain ⟨-, -, wr2, off2, hc, -⟩ := (muxDataMatch_iff _ _ _ _).mp h
    simp at hc
  · simpa using h

theorem phase1Ports_skip (m : Module) (w : WireRef) (cell : Cell)
    (pname : String) (psig : SigSpec) (ps : List (String × SigSpec)) (q : List Pair)
    (h : muxDataMatch cell w.name pname psig = false) :
    phase1Ports m w cell ((pname, psig) :: ps) q = phase1Ports m w cell ps q := by
  simp [phase1Ports, h]

/-! ## The worklist stays inside the design (claims C6, C10)

Everything the expansion of a design node pushes is again a design node. -/

theorem getPort_mem (c : Cell) (pname : String) (s : SigSpec)
    (h : c.getPort pname = some s) : s ∈ c.connections.map Prod.snd := by
  unfold Cell.getPort at h
  cases hf : c.connections.find? (fun pc => pc.1 == pname) with
  | none => rw [hf] at h; cases h
  | some pc =>
    rw [hf] at h
    simp only [Option.map_some'] at h
    obtain rfl := Option.some.inj h
    exact List.mem_map.mpr ⟨pc, List.mem_of_find?_eq_some hf, rfl⟩

theorem portSig_mem_moduleSigs (m : Module) (cell : Cell) (s : SigSpec)
    (hc : cell ∈ m.cells) (hs : s ∈ cell.connections.map Prod.snd) :
    s ∈ moduleSigs m := by
  unfold moduleSigs
  refine List.mem_append.mpr (Or.inl (List.mem_append.mpr (Or.inl ?_)))
  rw [List.mem_flatten]
  exact ⟨cell.connections.map Prod.snd, List.mem_map.mpr ⟨cell, hc, rfl⟩, hs⟩

theorem connFirst_mem_moduleSigs (m : Module) (c1 c2 : SigSpec)
    (hc : (c1, c2) ∈ m.connections) : c1 ∈ moduleSigs m := by
  unfold moduleSigs
  refine List.mem_append.mpr (Or.inl (List.mem_append.mpr (Or.inr ?_)))
  exact List.mem_map.mpr ⟨(c1, c2), hc, rfl⟩

theorem wire_mem_moduleSigs (m : Module) (w : Wire) (hw : w ∈ m.wires) :
    wholeSpec w.ref ∈ moduleSigs m := by
  unfold moduleSigs
  exact List.mem_append.mpr (Or.inr (List.mem_map.mpr ⟨w, hw, rfl⟩))

theorem moduleq_mem (d : Design) (t : String) (mm : Module)
    (h : d.module? t = some mm) : mm ∈ d.modules :=
  List.mem_of_find?_eq_some h

theorem wireq_mem (m : Module) (t : String) (w : Wire)
    (h : m.wire? t = some w) : w ∈ m.wires :=
  List.mem_of_find?_eq_some h

theorem mapLookup_mem (pmap : List (Module × Module)) (k v : Module)
    (h : mapLookup pmap k = some v) : ∃ kv ∈ pmap, kv.2 = v := by
  unfold mapLookup at h
  cases hf : pmap.find? (fun kv => kv.1 = k) with
  | none => rw [hf] at h; cases h
  | some kv =>
    rw [hf] at h
    simp only [Option.map_some'] at h
    exact ⟨kv, List.mem_of_find?_eq_some hf, Option.some.inj h⟩

theorem pushOutputs_cont (d : Design) (m : Module) (cell : Cell)
    (hm : m ∈ d.modules) (hc : cell ∈ m.cells) :
    ∀ (ps : List (String × SigSpec)) (q qo : List Pair),
    (∀ p ∈ ps, p ∈ cell.connections) →
    (∀ x ∈ q, nodeInDesign d x) →
    pushOutputs m cell ps q = .cont qo →
    ∀ x ∈ qo, nodeInDesign d x := by
  intro ps
  induction ps with
  | nil =>
    intro q qo hsub hq h
    cases h; assumption
  | cons p ps ih =>
    intro q qo hsub hq h
    obtain ⟨oname, osig⟩ := p
    simp only [pushOutputs] at h
    by_cases ho : cell.outputPorts.contains oname = true
    · rw [if_pos ho] at h
      split at h
      · cases h
      next wr hw =>
        refine ih _ _ (fun p hp => hsub p (List.mem_cons_of_mem _ hp)) ?_ h
        intro x hx
        rcases List.mem_append.mp hx with h1 | h2
        · exact hq x h1
        · rw [List.mem_singleton.mp h2]
          refine ⟨hm, portSig_mem_moduleSigs m cell osig hc ?_⟩
          exact List.mem_map.mpr ⟨(oname, osig), hsub _ (List.mem_cons_self _ _), rfl⟩
    · rw [if_neg ho] at h
      exact ih _ _ (fun p hp => hsub p (List.mem_cons_of_mem _ hp)) hq h

theorem phase1Ports_cont (d : Design) (m : Module) (w : WireRef) (cell : Cell)
    (hm : m ∈ d.modules) (hc : cell ∈ m.cells) :
    ∀ (ps : List (String × SigSpec)) (q qo : List Pair),
    (∀ x ∈ q, nodeInDesign d x) →
    phase1Ports m w cell ps q = .cont qo →
    ∀ x ∈ qo, nodeInDesign d x := by
  intro ps
  induction ps with
  | nil => intro q qo hq h; cases h; assumption
  | cons p ps ih =>
    intro q qo hq h
    obtain ⟨pname, psig⟩ := p
    simp only [phase1Ports] at h
    by_cases hmatch : muxDataMatch cell w.name pname psig = true
    · rw [if_pos hmatch] at h
      by_cases hS : (pname == "\\S") = true
      · rw [if_pos hS] at h
        split at h
        · cases h
        next y hy =>
          refine ih _ _ ?_ h
          intro x hx
          rcases List.mem_append.mp hx with h1 | h2
          · exact hq x h1
          · rw [List.mem_singleton.mp h2]
            exact ⟨hm, portSig_mem_moduleSigs m cell y hc (getPort_mem cell _ y hy)⟩
      · rw [if_neg hS] at h
        split at h
        · cases h
        next s hgs =>
          split at h
          · cases h
          next sw hsw =>
            by_cases hrs : strContains sw.name "rstz" = true
            · rw [if_pos hrs] at h
              split at h
              · cases h
              next y hy =>
                refine ih _ _ ?_ h
                intro x hx
                rcases List.mem_append.mp hx with h1 | h2
                · exact hq x h1
                · rw [List.mem_singleton.mp h2]
                  exact ⟨hm, portSig_mem_moduleSigs m cell y hc (getPort_mem cell _ y hy)⟩
            · rw [if_neg hrs] at h
              by_cases hiw : s.is_wire = true
              · rw [if_pos hiw] at h; cases h
              · exact absurd (as_wire_some_is_wire s sw hsw) hiw
    · rw [if_neg hmatch] at h
      exact ih _ _ hq h

theorem phase1Cells_cont (d : Design) (m : Module) (w : WireRef)
    (hm : m ∈ d.modules) :
    ∀ (cs : List Cell) (q qo : List Pair),
    (∀ c ∈ cs, c ∈ m.cells) →
    (∀ x ∈ q, nodeInDesign d x) →
    phase1Cells m w cs q = .cont qo →
    ∀ x ∈ qo, nodeInDesign d x := by
  intro cs
  induction cs with
  | nil => intro q qo hsub hq h; cases h; assumption
  | cons cell cs ih =>
    intro q qo hsub hq h
    simp only [phase1Cells] at h
    split at h
    · cases h
    next q2 hp =>
      refine ih _ _ (fun c hcc => hsub c (List.mem_cons_of_mem _ hcc)) ?_ h
      exact phase1Ports_cont d m w cell hm (hsub cell (List.mem_cons_self _ _)) _ _ _ hq hp

theorem phase2Ports_cont (d : Design) (m : Module) (w : WireRef) (cell : Cell)
    (hm : m ∈ d.modules) (hc : cell ∈ m.cells) :
    ∀ (ps : List (String × SigSpec)) (q qo : List Pair),
    (∀ x ∈ q, nodeInDesign d x) →
    phase2Ports m w cell ps q = .cont qo →
    ∀ x ∈ qo, nodeInDesign d x := by
  intro ps
  induction ps with
  | nil => intro q qo hq h; cases h; assumption
  | cons p ps ih =>
    intro q qo hq h
    obtain ⟨pname, psig⟩ := p
    simp only [phase2Ports] at h
    by_cases hmw : sigMatchW psig w.name = true
    · rw [if_pos hmw] at h
      by_cases hi : cell.inputPorts.contains pname = true
      · rw [if_pos hi] at h
        split at h
        · cases h
        next q2 hp =>
          refine ih _ _ ?_ h
          exact pushOutputs_cont d m cell hm hc _ _ _ (fun p hp2 => hp2) hq hp
      · rw [if_neg hi] at h; exact ih _ _ hq h
    · rw [if_neg hmw] at h; exact ih _ _ hq h

theorem phase2Cells_cont (d : Design) (m : Module) (w : WireRef)
    (hm : m ∈ d.modules) :
    ∀ (cs : List Cell) (q qo : List Pair),
    (∀ c ∈ cs, c ∈ m.cells) →
    (∀ x ∈ q, nodeInDesign d x) →
    phase2Cells d m w cs q = .cont qo →
    ∀ x ∈ qo, nodeInDesign d x := by
  intro cs
  induction cs with
  | nil => intro q qo hsub hq h; cases h; assumption
  | cons cell cs ih =>
    intro q qo hsub hq h
    simp only [phase2Cells] at h
    by_cases hmod : (d.module? cell.type).isSome = true
    · rw [if_pos hmod] at h
      exact ih _ _ (fun c hcc => hsub c (List.mem_cons_of_mem _ hcc)) hq h
    · rw [if_neg hmod] at h
      split at h
      · cases h
      next q2 hp =>
        refine ih _ _ (fun c hcc => hsub c (List.mem_cons_of_mem _ hcc)) ?_ h
        exact phase2Ports_cont d m w cell hm (hsub cell (List.mem_cons_self _ _)) _ _ _ hq hp

theorem phase3Conns_cont (d : Design) (m : Module) (w : WireRef)
    (hm : m ∈ d.modules) :
    ∀ (cs : List (SigSpec × SigSpec)) (q qo : List Pair),
    (∀ c ∈ cs, c ∈ m.connections) →
    (∀ x ∈ q, nodeInDesign d x) →
    phase3Conns m w cs q = .cont qo →
    ∀ x ∈ qo, nodeInDesign d x := by
  intro cs
  induction cs with
  | nil => intro q qo hsub hq h; cases h; assumption
  | cons c cs ih =>
    intro q qo hsub hq h
    obtain ⟨c1, c2⟩ := c
    simp only [phase3Conns] at h
    by_cases hmw : sigMatchW c2 w.name = true
    · rw [if_pos hmw] at h
      split at h
      · cases h
      next wr hw =>
        refine ih _ _ (fun c hcc => hsub c (List.mem_cons_of_mem _ hcc)) ?_ h
        intro x hx
        rcases List.mem_cons.mp hx with rfl | hx2
        · exact ⟨hm, connFirst_mem_moduleSigs m c1 c2 (hsub _ (List.mem_cons_self _ _))⟩
        · exact hq x hx2
    · rw [if_neg hmw] at h
      exact ih _ _ (fun c hcc => hsub c (List.mem_cons_of_mem _ hcc)) hq h

theorem phase4Ports_cont (d : Design) (m : Module) (w : WireRef)
    (submod : Module) (cell : Cell) (hsm : submod ∈ d.modules) :
    ∀ (ps : List (String × SigSpec)) (q qo : List Pair),
    (∀ x ∈ q, nodeInDesign d x) →
    phase4Ports m w submod cell ps q = .cont qo →
    ∀ x ∈ qo, nodeInDesign d x := by
  intro ps
  induction ps with
  | nil => intro q qo hq h; cases h; assumption
  | cons p ps ih =>
    intro q qo hq h
    obtain ⟨pname, psig⟩ := p
    simp only [phase4Ports] at h
    by_cases hmw : sigMatchW psig w.name = true
    · rw [if_pos hmw] at h
      by_cases ho : cell.outputPorts.contains pname = true
      · rw [if_pos ho] at h; exact ih _ _ hq h
      · rw [if_neg ho] at h
        split at h
        · cases h
        next sw hw =>
          refine ih _ _ ?_ h
          intro x hx
          rcases List.mem_cons.mp hx with rfl | hx2
          · exact ⟨hsm, wire_mem_moduleSigs submod sw (wireq_mem submod _ sw hw)⟩
          · exact hq x hx2
    · rw [if_neg hmw] at h; exact ih _ _ hq h

theorem phase4Cells_cont (d : Design) (m : Module) (w : WireRef) :
    ∀ (cs : List Cell) (q qo : List Pair),
    (∀ x ∈ q, nodeInDesign d x) →
    phase4Cells d m w cs q = .cont qo →
    ∀ x ∈ qo, nodeInDesign d x := by
  intro cs
  induction cs with
  | nil => intro q qo hq h; cases h; assumption
  | cons cell cs ih =>
    intro q qo hq h
    simp only [phase4Cells] at h
    split at h
    · exact ih _ _ hq h
    next submod hmod =>
      split at h
      · cases h
      next q2 hp =>
        refine ih _ _ ?_ h
        exact phase4Ports_cont d m w submod cell (moduleq_mem d _ submod hmod) _ _ _ hq hp

theorem phase5Ports_cont (d : Design) (w : WireRef) (parent : Module) (cell : Cell)
    (hpm : parent ∈ d.modules) (hc : cell ∈ parent.cells) :
    ∀ (ps : List (String × SigSpec)) (q qo : List Pair),
    (∀ p ∈ ps, p ∈ cell.connections) →
    (∀ x ∈ q, nodeInDesign d x) →
    phase5Ports parent w cell ps q = .cont qo →
    ∀ x ∈ qo, nodeInDesign d x := by
  intro ps
  induction ps with
  | nil => intro q qo hsub hq h; cases h; assumption
  | cons p ps ih =>
    intro q qo hsub hq h
    obtain ⟨pname, psig⟩ := p
    simp only [phase5Ports] at h
    by_cases hn : (pname == w.name) = true
    · rw [if_pos hn] at h
      split at h
      · cases h
      next wr hw =>
        refine ih _ _ (fun p hp => hsub p (List.mem_cons_of_mem _ hp)) ?_ h
        intro x hx
        rcases List.mem_cons.mp hx with rfl | hx2
        · refine ⟨hpm, portSig_mem_moduleSigs parent cell psig hc ?_⟩
          exact List.mem_map.mpr ⟨(pname, psig), hsub _ (List.mem_cons_self _ _), rfl⟩
        · exact hq x hx2
    · rw [if_neg hn] at h
      exact ih _ _ (fun p hp => hsub p (List.mem_cons_of_mem _ hp)) hq h

theorem phase5Cells_cont (d : Design) (m : Module) (w : WireRef) (parent : Module)
    (hpm : parent ∈ d.modules) :
    ∀ (cs : List Cell) (q qo : List Pair),
    (∀ c ∈ cs, c ∈ parent.cells) →
    (∀ x ∈ q, nodeInDesign d x) →
    phase5Cells d m w parent cs q = .cont qo →
    ∀ x ∈ qo, nodeInDesign d x := by
  intro cs
  induction cs with
  | nil => intro q qo hsub hq h; cases h; assumption
  | cons cell cs ih =>
    intro q qo hsub hq h
    simp only [phase5Cells] at h
    by_cases hmod : d.module? cell.type = some m
    · rw [if_pos hmod] at h
      split at h
      · cases h
      next q2 hp =>
        refine ih _ _ (fun c hcc => hsub c (List.mem_cons_of_mem _ hcc)) ?_ h
        exact phase5Ports_cont d w parent cell hpm (hsub cell (List.mem_cons_self _ _))
          _ _ _ (fun p hp2 => hp2) hq hp
    · rw [if_neg hmod] at h
      exact ih _ _ (fun c hcc => hsub c (List.mem_cons_of_mem _ hcc)) hq h

theorem phase5Wires_cont (d : Design) (pmap : List (Module × Module))
    (m : Module) (w : WireRef)
    (hpmap : ∀ kv ∈ pmap, kv.2 ∈ d.modules) :
    ∀ (ws : List Wire) (q qo : List Pair),
    (∀ x ∈ q, nodeInDesign d x) →
    phase5Wires d pmap m w ws q = .cont qo →
    ∀ x ∈ qo, nodeInDesign d x := by
  intro ws
  induction ws with
  | nil => intro q qo hq h; cases h; assumption
  | cons wr ws ih =>
    intro q qo hq h
    simp only [phase5Wires] at h
    by_cases hn : (wr.name == w.name) = true
    · rw [if_pos hn] at h
      split at h
      · exact ih _ _ hq h
      next parent hl =>
        split at h
        · cases h
        next q2 hp =>
          refine ih _ _ ?_ h
          obtain ⟨kv, hkv, hkv2⟩ := mapLookup_mem pmap m parent hl
          exact phase5Cells_cont d m w parent (hkv2 ▸ hpmap kv hkv) _ _ _
            (fun c hcc => hcc) hq hp
    · rw [if_neg hn] at h
      exact ih _ _ hq h

theorem expandChunks_cont (d : Design) (pmap : List (Module × Module)) (m : Module)
    (hm : m ∈ d.modules) (hpmap : ∀ kv ∈ pmap, kv.2 ∈ d.modules) :
    ∀ (chunks : List SigChunk) (q qo : List Pair),
    (∀ x ∈ q, nodeInDesign d x) →
    expandChunks d pmap m chunks q = .cont qo →
    ∀ x ∈ qo, nodeInDesign d x := by
  intro chunks
  induction chunks with
  | nil => intro q qo hq h; cases h; assumption
  | cons c cs ih =>
    intro q qo hq h
    simp only [expandChunks] at h
    split at h
    · exact ih _ _ hq h
    next w hw =>
      split at h
      · cases h
      next q1 hp1 =>
        have hq1 := phase1Cells_cont d m w hm _ _ _ (fun c hc => hc) hq hp1
        split at h
        · cases h
        next q2 hp2 =>
          have hq2 := phase2Cells_cont d m w hm _ _ _ (fun c hc => hc) hq1 hp2
          split at h
          · cases h
          next q3 hp3 =>
            have hq3 := phase3Conns_cont d m w hm _ _ _ (fun c hc => hc) hq2 hp3
            split at h
            · cases h
            next q4 hp4 =>
              have hq4 := phase4Cells_cont d m w _ _ _ hq3 hp4
              split at h
              · cases h
              next q5 hp5 =>
                have hq5 := phase5Wires_cont d pmap m w hpmap _ _ _ hq4 hp5
                exact ih _ _ hq5 h

/-! ## Termination of the tracer (claim C6) -/

theorem mem_universe_iff (d : Design) (p : Pair) :
    p ∈ d.modules.flatMap (fun m => (moduleSigs m).map (fun s => (m, s))) ↔
      nodeInDesign d p := by
  obtain ⟨pm, ps⟩ := p
  simp only [List.mem_flatMap, List.mem_map, nodeInDesign]
  constructor
  · rintro ⟨m, hm, s, hs, heq⟩
    obtain ⟨rfl, rfl⟩ := Prod.mk.inj heq
    exact ⟨hm, hs⟩
  · rintro ⟨hm, hs⟩
    exact ⟨pm, hm, ps, hs, rfl⟩

theorem countP_monotone_visited (visited : List Pair) (p : Pair) :
    ∀ (l : List Pair),
    l.countP (fun x => decide (x ∉ p :: visited)) ≤
      l.countP (fun x => decide (x ∉ visited)) := by
  intro l
  apply List.countP_mono_left
  intro a _ hdec
  simp only [decide_eq_true_eq] at hdec ⊢
  intro hav
  exact hdec (List.mem_cons_of_mem _ hav)

theorem remainingNodes_strict (d : Design) (visited : List Pair) (p : Pair)
    (hpU : nodeInDesign d p) (hpv : p ∉ visited) :
    remainingNodes d (p :: visited) < remainingNodes d visited := by
  unfold remainingNodes
  have hpmem : p ∈ d.modules.flatMap (fun m => (moduleSigs m).map (fun s => (m, s))) :=
    (mem_universe_iff d p).mpr hpU
  obtain ⟨l₁, l₂, hsplit⟩ := List.append_of_mem hpmem
  rw [hsplit]
  rw [List.countP_append, List.countP_append, List.countP_cons, List.countP_cons]
  have h1 := countP_monotone_visited visited p l₁
  have h2 := countP_monotone_visited visited p l₂
  have hp1 : (decide (p ∉ p :: visited)) = false := by simp
  have hp2 : (decide (p ∉ visited)) = true := by simpa using hpv
  simp only [hp1, hp2, Bool.false_eq_true, if_false, if_true]
  omega

theorem phase1Ports_ret_not_fuelOut (m : Module) (w : WireRef) (cell : Cell) :
    ∀ (ps : List (String × SigSpec)) (q : List Pair) (r : TraceResult),
    phase1Ports m w cell ps q = .ret r → r ≠ .fuelOut := by
  intro ps
  induction ps with
  | nil => intro q r h; cases h
  | cons p ps ih =>
    intro q r h
    obtain ⟨pname, psig⟩ := p
    simp only [phase1Ports] at h
    by_cases hmatch : muxDataMatch cell w.name pname psig = true
    · rw [if_pos hmatch] at h
      by_cases hS : (pname == "\\S") = true
      · rw [if_pos hS] at h
        split at h
        · rw [← PhaseOut.ret.inj h]; simp
        next y hy => exact ih _ _ h
      · rw [if_neg hS] at h
        split at h
        · rw [← PhaseOut.ret.inj h]; simp
        next s hgs =>
          split at h
          · rw [← PhaseOut.ret.inj h]; simp
          next sw hsw =>
            by_cases hrs : strContains sw.name "rstz" = true
            · rw [if_pos hrs] at h
              split at h
              · rw [← PhaseOut.ret.inj h]; simp
              next y hy => exact ih _ _ h
            · rw [if_neg hrs] at h
              by_cases hiw : s.is_wire = true
              · rw [if_pos hiw] at h
                rw [← PhaseOut.ret.inj h]; simp
              · exact absurd (as_wire_some_is_wire s sw hsw) hiw
    · rw [if_neg hmatch] at h; exact ih _ _ h

theorem phase1Cells_ret_not_fuelOut (m : Module) (w : WireRef) :
    ∀ (cs : List Cell) (q : List Pair) (r : TraceResult),
    phase1Cells m w cs q = .ret r → r ≠ .fuelOut := by
  intro cs
  induction cs with
  | nil => intro q r h; cases h
  | cons cell cs ih =>
    intro q r h
    simp only [phase1Cells] at h
    split at h
    next r2 hp =>
      rw [← PhaseOut.ret.inj h]
      exact phase1Ports_ret_not_fuelOut m w cell _ _ _ hp
    next q2 hp => exact ih _ _ h

theorem expandChunks_ret_not_fuelOut (d : Design) (pmap : List (Module × Module))
    (m : Module) :
    ∀ (chunks : List SigChunk) (q : List Pair) (r : TraceResult),
    expandChunks d pmap m chunks q = .ret r → r ≠ .fuelOut := by
  intro chunks
  induction chunks with
  | nil => intro q r h; cases h
  | cons c cs ih =>
    intro q r h
    simp only [expandChunks] at h
    split at h
    · exact ih _ _ h
    next w hw =>
      split at h
      next r1 hp1 =>
        rw [← PhaseOut.ret.inj h]
        exact phase1Cells_ret_not_fuelOut m w _ _ _ hp1
      next q1 hp1 =>
        split at h
        next r2 hp2 =>
          rw [← PhaseOut.ret.inj h, phase2Cells_ret d m w _ _ _ hp2]; simp
        next q2 hp2 =>
          split at h
          next r3 hp3 =>
            rw [← PhaseOut.ret.inj h, phase3Conns_ret m w _ _ _ hp3]; simp
          next q3 hp3 =>
            split at h
            next r4 hp4 =>
              rw [← PhaseOut.ret.inj h, phase4Cells_ret d m w _ _ _ hp4]; simp
            next q4 hp4 =>
              split at h
              next r5 hp5 =>
                rw [← PhaseOut.ret.inj h, phase5Wires_ret d pmap m w _ _ _ hp5]; simp
              next q5 hp5 => exact ih _ _ h

theorem findNextMuxLoop_term (d : Design) (pmap : List (Module × Module))
    (hpmap : ∀ kv ∈ pmap, kv.2 ∈ d.modules) :
    ∀ (k : Nat) (visited : List Pair), remainingNodes d visited ≤ k →
    ∀ (q : List Pair), (∀ x ∈ q, nodeInDesign d x) →
    ∃ n, (findNextMuxLoop n ⟨d, pmap, q, visited⟩).result ≠ .fuelOut := by
  intro k
  induction k with
  | zero =>
    intro visited hcnt q hq
    induction q with
    | nil => exact ⟨1, by simp [findNextMuxLoop]⟩
    | cons p rest ihq =>
      have hpv : p ∈ visited := by
        by_contra hpv
        have hlt := remainingNodes_strict d visited p (hq p (List.mem_cons_self _ _)) hpv
        omega
      cases hw : p.2.as_wire with
      | none => exact ⟨1, by simp [findNextMuxLoop, hpv, hw]⟩
      | some wr =>
        obtain ⟨n, hn⟩ := ihq (fun x hx => hq x (List.mem_cons_of_mem _ hx))
        refine ⟨n + 1, ?_⟩
        have heq : findNextMuxLoop (n + 1) ⟨d, pmap, p :: rest, visited⟩ =
            findNextMuxLoop n ⟨d, pmap, rest, visited⟩ := by
          simp [findNextMuxLoop, hpv, hw]
        rw [heq]; exact hn
  | succ k ih =>
    intro visited hcnt q hq
    induction q with
    | nil => exact ⟨1, by simp [findNextMuxLoop]⟩
    | cons p rest ihq =>
      by_cases hpv : p ∈ visited
      · cases hw : p.2.as_wire with
        | none => exact ⟨1, by simp [findNextMuxLoop, hpv, hw]⟩
        | some wr =>
          obtain ⟨n, hn⟩ := ihq (fun x hx => hq x (List.mem_cons_of_mem _ hx))
          refine ⟨n + 1, ?_⟩
          have heq : findNextMuxLoop (n + 1) ⟨d, pmap, p :: rest, visited⟩ =
              findNextMuxLoop n ⟨d, pmap, rest, visited⟩ := by
            simp [findNextMuxLoop, hpv, hw]
          rw [heq]; exact hn
      · by_cases hproc : p.1.hasProcesses = true
        · exact ⟨1, by simp [findNextMuxLoop, hpv, hproc]⟩
        · cases hex : expandChunks d pmap p.1 p.2.chunks rest with
          | ret r =>
            refine ⟨1, ?_⟩
            have heq : (findNextMuxLoop 1 ⟨d, pmap, p :: rest, visited⟩).result = r := by
              simp [findNextMuxLoop, hpv, hproc, hex]
            rw [heq]
            exact expandChunks_ret_not_fuelOut d pmap p.1 _ _ _ hex
          | cont q2 =>
            have hp1mem : p.1 ∈ d.modules := (hq p (List.mem_cons_self _ _)).1
            have hq2 : ∀ x ∈ q2, nodeInDesign d x :=
              expandChunks_cont d pmap p.1 hp1mem hpmap _ _ _
                (fun x hx => hq x (List.mem_cons_of_mem _ hx)) hex
            have hcnt2 : remainingNodes d (p :: visited) ≤ k := by
              have hlt := remainingNodes_strict d visited p
                (hq p (List.mem_cons_self _ _)) hpv
              omega
            obtain ⟨n, hn⟩ := ih (p :: visited) hcnt2 q2 hq2
            refine ⟨n + 1, ?_⟩
            have heq : (findNextMuxLoop (n + 1) ⟨d, pmap, p :: rest, visited⟩).result =
                (findNextMuxLoop n ⟨d, pmap, q2, p :: visited⟩).result := by
              simp [findNextMuxLoop, hpv, hproc, hex]
            rw [heq]; exact hn

/-! ## The unguarded select-port dereference (claim C10) -/

theorem is_wire_as_wire_isSome (s : SigSpec) (h : s.is_wire = true) :
    ∃ wr, s.as_wire = some wr := by
  obtain ⟨chunks⟩ := s
  simp only [SigSpec.is_wire, SigSpec.as_wire] at h ⊢
  match chunks with
  | [] => cases h
  | [c] =>
    match hw : c.wire with
    | some wr =>
      simp only [hw] at h ⊢
      rw [if_pos h]
      exact ⟨wr, rfl⟩
    | none => simp only [hw] at h; cases h
  | a :: b :: rest => cases h

theorem phase1Ports_no_sassert (m : Module) (w : WireRef) (cell : Cell)
    (hcell : cell.type = "$mux" →
      ∃ s, cell.getPort "\\S" = some s ∧ s.is_wire = true) :
    ∀ (ps : List (String × SigSpec)) (q : List Pair) (r : TraceResult),
    phase1Ports m w cell ps q = .ret r →
    r ≠ .crash .sAsWire ∧ r ≠ .crash .sPortMissing := by
  intro ps
  induction ps with
  | nil => intro q r h; cases h
  | cons p ps ih =>
    intro q r h
    obtain ⟨pname, psig⟩ := p
    simp only [phase1Ports] at h
    by_cases hmatch : muxDataMatch cell w.name pname psig = true
    · rw [if_pos hmatch] at h
      have htype : cell.type = "$mux" := by
        simp [muxDataMatch, Bool.and_eq_true] at hmatch
        exact hmatch.1.1
      obtain ⟨s0, hgs0, hiw0⟩ := hcell htype
      by_cases hS : (pname == "\\S") = true
      · rw [if_pos hS] at h
        split at h
        · rw [← PhaseOut.ret.inj h]; simp
        next y hy => exact ih _ _ h
      · rw [if_neg hS] at h
        split at h
        next hgs => rw [hgs0] at hgs; cases hgs
        next s hgs =>
          rw [hgs0] at hgs
          obtain rfl := Option.some.inj hgs
          split at h
          next hsw =>
            obtain ⟨wr, hwr⟩ := is_wire_as_wire_isSome s0 hiw0
            rw [hwr] at hsw; cases hsw
          next sw hsw =>
            by_cases hrs : strContains sw.name "rstz" = true
            · rw [if_pos hrs] at h
              split at h
              · rw [← PhaseOut.ret.inj h]; simp
              next y hy => exact ih _ _ h
            · rw [if_neg hrs] at h
              rw [if_pos hiw0] at h
              rw [← PhaseOut.ret.inj h]; simp
    · rw [if_neg hmatch] at h; exact ih _ _ h

theorem phase1Cells_no_sassert (m : Module) (w : WireRef)
    (hcells : ∀ cell ∈ m.cells, cell.type = "$mux" →
      ∃ s, cell.getPort "\\S" = some s ∧ s.is_wire = true) :
    ∀ (cs : List Cell) (q : List Pair) (r : TraceResult),
    (∀ c ∈ cs, c ∈ m.cells) →
    phase1Cells m w cs q = .ret r →
    r ≠ .crash .sAsWire ∧ r ≠ .crash .sPortMissing := by
  intro cs
  induction cs with
  | nil => intro q r hsub h; cases h
  | cons cell cs ih =>
    intro q r hsub h
    simp only [phase1Cells] at h
    split at h
    next r2 hp =>
      rw [← PhaseOut.ret.inj h]
      exact phase1Ports_no_sassert m w cell
        (hcells cell (hsub cell (List.mem_cons_self _ _))) _ _ _ hp
    next q2 hp =>
      exact ih _ _ (fun c hcc => hsub c (List.mem_cons_of_mem _ hcc)) h

theorem expandChunks_no_sassert (d : Design) (pmap : List (Module × Module))
    (m : Module)
    (hcells : ∀ cell ∈ m.cells, cell.type = "$mux" →
      ∃ s, cell.getPort "\\S" = some s ∧ s.is_wire = true) :
    ∀ (chunks : List SigChunk) (q : List Pair) (r : TraceResult),
    expandChunks d pmap m chunks q = .ret r →
    r ≠ .crash .sAsWire ∧ r ≠ .crash .sPortMissing := by
  intro chunks
  induction chunks with
  | nil => intro q r h; cases h
  | cons c cs ih =>
    intro q r h
    simp only [expandChunks] at h
    split at h
    · exact ih _ _ h
    next w hw =>
      split at h
      next r1 hp1 =>
        rw [← PhaseOut.ret.inj h]
        exact phase1Cells_no_sassert m w hcells _ _ _ (fun c hc => hc) hp1
      next q1 hp1 =>
        split at h
        next r2 hp2 =>
          rw [← PhaseOut.ret.inj h, phase2Cells_ret d m w _ _ _ hp2]; simp
        next q2 hp2 =>
          split at h
          next r3 hp3 =>
            rw [← PhaseOut.ret.inj h, phase3Conns_ret m w _ _ _ hp3]; simp
          next q3 hp3 =>
            split at h
            next r4 hp4 =>
              rw [← PhaseOut.ret.inj h, phase4Cells_ret d m w _ _ _ hp4]; simp
            next q4 hp4 =>
              split at h
              next r5 hp5 =>
                rw [← PhaseOut.ret.inj h, phase5Wires_ret d pmap m w _ _ _ hp5]; simp
              next q5 hp5 => exact ih _ _ h

theorem findNextMuxLoop_no_sassert (d : Design) (pmap : List (Module × Module))
    (hpmap : ∀ kv ∈ pmap, kv.2 ∈ d.modules)
    (hyp : ∀ m ∈ d.modules, ∀ cell ∈ m.cells, cell.type = "$mux" →
      ∃ s, cell.getPort "\\S" = some s ∧ s.is_wire = true) :
    ∀ (fuel : Nat) (q visited : List Pair),
    (∀ x ∈ q, nodeInDesign d x) →
    (findNextMuxLoop fuel ⟨d, pmap, q, visited⟩).result ≠ .crash .sAsWire ∧
      (findNextMuxLoop fuel ⟨d, pmap, q, visited⟩).result ≠ .crash .sPortMissing := by
  intro fuel
  induction fuel with
  | zero => intro q visited hq; exact ⟨by simp [findNextMuxLoop], by simp [findNextMuxLoop]⟩
  | succ n ih =>
    intro q visited hq
    cases q with
    | nil => exact ⟨by simp [findNextMuxLoop], by simp [findNextMuxLoop]⟩
    | cons p rest =>
      by_cases hpv : p ∈ visited
      · cases hw : p.2.as_wire with
        | none =>
          constructor <;> simp [findNextMuxLoop, hpv, hw]
        | some wr =>
          have heq : findNextMuxLoop (n + 1) ⟨d, pmap, p :: rest, visited⟩ =
              findNextMuxLoop n ⟨d, pmap, rest, visited⟩ := by
            simp [findNextMuxLoop, hpv, hw]
          rw [heq]
          exact ih _ _ (fun x hx => hq x (List.mem_cons_of_mem _ hx))
      · by_cases hproc : p.1.hasProcesses = true
        · constructor <;> simp [findNextMuxLoop, hpv, hproc]
        · cases hex : expandChunks d pmap p.1 p.2.chunks rest with
          | ret r =>
            have heq : (findNextMuxLoop (n + 1) ⟨d, pmap, p :: rest, visited⟩).result = r := by
              simp [findNextMuxLoop, hpv, hproc, hex]
            rw [heq]
            exact expandChunks_no_sassert d pmap p.1
              (hyp p.1 (hq p (List.mem_cons_self _ _)).1) _ _ _ hex
          | cont q2 =>
            have heq : (findNextMuxLoop (n + 1) ⟨d, pmap, p :: rest, visited⟩).result =
                (findNextMuxLoop n ⟨d, pmap, q2, p :: visited⟩).result := by
              simp [findNextMuxLoop, hpv, hproc, hex]
            rw [heq]
            exact ih _ _ (expandChunks_cont d pmap p.1 (hq p (List.mem_cons_self _ _)).1
              hpmap _ _ _ (fun x hx => hq x (List.mem_cons_of_mem _ hx)) hex)

/-! ## Visited-once discipline (claim C5) and graph frame (claim C8) -/

theorem findNextMuxLoop_expanded_inv :
    ∀ (fuel : Nat) (st : LoopState),
    (findNextMuxLoop fuel st).expanded.Nodup ∧
      ∀ p ∈ (findNextMuxLoop fuel st).expanded, p ∉ st.visited := by
  intro fuel
  induction fuel with
  | zero =>
    intro st
    exact ⟨List.nodup_nil, by intro p hp; cases hp⟩
  | succ n ih =>
    intro st
    obtain ⟨dd, pm, q, vis⟩ := st
    cases q with
    | nil =>
      constructor
      · simp [findNextMuxLoop]
      · intro p hp; simp [findNextMuxLoop] at hp
    | cons p rest =>
      by_cases hpv : p ∈ vis
      · cases hw : p.2.as_wire with
        | none =>
          constructor
          · simp [findNextMuxLoop, hpv, hw]
          · intro x hx; simp [findNextMuxLoop, hpv, hw] at hx
        | some wr =>
          have heq : findNextMuxLoop (n + 1) ⟨dd, pm, p :: rest, vis⟩ =
              findNextMuxLoop n ⟨dd, pm, rest, vis⟩ := by
            simp [findNextMuxLoop, hpv, hw]
          rw [heq]
          exact ih ⟨dd, pm, rest, vis⟩
      · by_cases hproc : p.1.hasProcesses = true
        · have heq : (findNextMuxLoop (n + 1) ⟨dd, pm, p :: rest, vis⟩).expanded = [p] := by
            simp [findNextMuxLoop, hpv, hproc]
          rw [heq]
          exact ⟨List.nodup_singleton p, by
            intro x hx
            rw [List.mem_singleton.mp hx]
            exact hpv⟩
        · cases hex : expandChunks dd pm p.1 p.2.chunks rest with
          | ret r =>
            have heq : (findNextMuxLoop (n + 1) ⟨dd, pm, p :: rest, vis⟩).expanded = [p] := by
              simp [findNextMuxLoop, hpv, hproc, hex]
            rw [heq]
            exact ⟨List.nodup_singleton p, by
              intro x hx
              rw [List.mem_singleton.mp hx]
              exact hpv⟩
          | cont q2 =>
            have heq : (findNextMuxLoop (n + 1) ⟨dd, pm, p :: rest, vis⟩).expanded =
                p :: (findNextMuxLoop n ⟨dd, pm, q2, p :: vis⟩).expanded := by
              simp [findNextMuxLoop, hpv, hproc, hex]
            rw [heq]
            obtain ⟨hnd, hdisj⟩ := ih ⟨dd, pm, q2, p :: vis⟩
            constructor
            · refine List.Nodup.cons ?_ hnd
              intro hc
              exact hdisj p hc (List.mem_cons_self _ _)
            · intro x hx
              rcases List.mem_cons.mp hx with rfl | hx2
              · exact hpv
              · intro hxv
                exact hdisj x hx2 (List.mem_cons_of_mem _ hxv)

theorem findNextMuxLoop_skip_eq (n : Nat) (st : LoopState) (p : Pair)
    (rest : List Pair) (wr : WireRef)
    (hq : st.queue = p :: rest) (hv : p ∈ st.visited) (hw : p.2.as_wire = some wr) :
    findNextMuxLoop (n + 1) st = findNextMuxLoop n { st with queue := rest } := by
  obtain ⟨dd, pm, q, vis⟩ := st
  simp only at hq hv
  subst hq
  simp [findNextMuxLoop, hv, hw]

theorem findNextMuxLoop_frame :
    ∀ (fuel : Nat) (st : LoopState),
    (findNextMuxLoop fuel st).final.design = st.design ∧
      (findNextMuxLoop fuel st).final.pmap = st.pmap := by
  intro fuel
  induction fuel with
  | zero => intro st; exact ⟨rfl, rfl⟩
  | succ n ih =>
    intro st
    obtain ⟨dd, pm, q, vis⟩ := st
    cases q with
    | nil => exact ⟨rfl, rfl⟩
    | cons p rest =>
      by_cases hpv : p ∈ vis
      · cases hw : p.2.as_wire with
        | none =>
          constructor <;> simp [findNextMuxLoop, hpv, hw]
        | some wr =>
          have heq : findNextMuxLoop (n + 1) ⟨dd, pm, p :: rest, vis⟩ =
              findNextMuxLoop n ⟨dd, pm, rest, vis⟩ := by
            simp [findNextMuxLoop, hpv, hw]
          rw [heq]
          exact ih ⟨dd, pm, rest, vis⟩
      · by_cases hproc : p.1.hasProcesses = true
        · constructor <;> simp [findNextMuxLoop, hpv, hproc]
        · cases hex : expandChunks dd pm p.1 p.2.chunks rest with
          | ret r =>
            constructor <;> simp [findNextMuxLoop, hpv, hproc, hex]
          | cont q2 =>
            have heq : (findNextMuxLoop (n + 1) ⟨dd, pm, p :: rest, vis⟩).final =
                (findNextMuxLoop n ⟨dd, pm, q2, p :: vis⟩).final := by
              simp [findNextMuxLoop, hpv, hproc, hex]
            rw [heq]
            exact ih ⟨dd, pm, q2, p :: vis⟩

/-! ## The topological sort (claims C3, C7) -/

theorem concat_eq_append_cons {α : Type} (l l₁ l₂ : List α) (n b : α)
    (h : l ++ [n] = l₁ ++ b :: l₂) :
    (∃ l₂x, l = l₁ ++ b :: l₂x ∧ l₂ = l₂x ++ [n]) ∨ (b = n ∧ l₁ = l ∧ l₂ = []) := by
  rcases List.eq_nil_or_concat l₂ with rfl | ⟨l₂x, x, rfl⟩
  · obtain ⟨h1, h2⟩ := List.append_inj' h rfl
    exact Or.inr ⟨(List.cons.inj h2).1.symm, h1.symm, rfl⟩
  · rw [List.concat_eq_append] at h ⊢
    rw [show l₁ ++ b :: (l₂x ++ [x]) = (l₁ ++ b :: l₂x) ++ [x] by simp] at h
    obtain ⟨h1, h2⟩ := List.append_inj' h rfl
    exact Or.inl ⟨l₂x, h1, by rw [(List.cons.inj h2).1]⟩

theorem kahnReady_spec (edges : List (Module × Module)) (emitted : List Module)
    (n : Module) (h : kahnReady edges emitted n = true) :
    ∀ e ∈ edges, e.2 = n → e.1 ∈ emitted := by
  intro e he h2
  have hall := List.all_eq_true.mp h e he
  rw [if_pos h2] at hall
  simpa using hall

theorem kahnLoop_sound (edges : List (Module × Module)) :
    ∀ (fuel : Nat) (rem emitted out : List Module),
    kahnLoop edges fuel rem emitted = some out →
    (∀ e ∈ edges, ∀ l₁ l₂, emitted.reverse = l₁ ++ e.2 :: l₂ → e.1 ∈ l₁) →
    ∀ e ∈ edges, ∀ l₁ l₂, out = l₁ ++ e.2 :: l₂ → e.1 ∈ l₁ := by
  intro fuel
  induction fuel with
  | zero =>
    intro rem emitted out h hinv
    cases rem with
    | nil =>
      simp only [kahnLoop] at h
      obtain rfl := Option.some.inj h
      exact hinv
    | cons a as => cases h
  | succ n ih =>
    intro rem emitted out h hinv
    cases rem with
    | nil =>
      simp only [kahnLoop] at h
      obtain rfl := Option.some.inj h
      exact hinv
    | cons a as =>
      simp only [kahnLoop] at h
      split at h
      · cases h
      next nd hfind =>
        refine ih _ _ _ h ?_
        intro e he l₁ l₂ hsplit
        rw [List.reverse_cons] at hsplit
        rcases concat_eq_append_cons _ _ _ _ _ hsplit with ⟨l₂x, h1, h2⟩ | ⟨hb, hl1, hl2⟩
        · exact hinv e he l₁ l₂x h1
        · subst hl1
          have hr := kahnReady_spec edges emitted nd (List.find?_some hfind) e he hb
          exact List.mem_reverse.mpr hr

theorem kahnLoop_mem (edges : List (Module × Module)) :
    ∀ (fuel : Nat) (rem emitted out : List Module),
    kahnLoop edges fuel rem emitted = some out →
    ∀ x, (x ∈ rem ∨ x ∈ emitted) → x ∈ out := by
  intro fuel
  induction fuel with
  | zero =>
    intro rem emitted out h x hx
    cases rem with
    | nil =>
      simp only [kahnLoop] at h
      obtain rfl := Option.some.inj h
      rcases hx with h1 | h2
      · cases h1
      · exact List.mem_reverse.mpr h2
    | cons a as => cases h
  | succ n ih =>
    intro rem emitted out h x hx
    cases rem with
    | nil =>
      simp only [kahnLoop] at h
      obtain rfl := Option.some.inj h
      rcases hx with h1 | h2
      · cases h1
      · exact List.mem_reverse.mpr h2
    | cons a as =>
      simp only [kahnLoop] at h
      split at h
      · cases h
      next nd hfind =>
        refine ih _ _ _ h x ?_
        rcases hx with h1 | h2
        · by_cases hnd : x = nd
          · exact Or.inr (hnd ▸ List.mem_cons_self _ _)
          · exact Or.inl ((List.mem_erase_of_ne hnd).mpr h1)
        · exact Or.inr (List.mem_cons_of_mem _ h2)

theorem kahnLoop_out_sub (edges : List (Module × Module)) :
    ∀ (fuel : Nat) (rem emitted out : List Module),
    kahnLoop edges fuel rem emitted = some out →
    ∀ x ∈ out, x ∈ rem ∨ x ∈ emitted := by
  intro fuel
  induction fuel with
  | zero =>
    intro rem emitted out h x hx
    cases rem with
    | nil =>
      simp only [kahnLoop] at h
      obtain rfl := Option.some.inj h
      exact Or.inr (List.mem_reverse.mp hx)
    | cons a as => cases h
  | succ n ih =>
    intro rem emitted out h x hx
    cases rem with
    | nil =>
      simp only [kahnLoop] at h
      obtain rfl := Option.some.inj h
      exact Or.inr (List.mem_reverse.mp hx)
    | cons a as =>
      simp only [kahnLoop] at h
      split at h
      · cases h
      next nd hfind =>
        rcases ih _ _ _ h x hx with h1 | h2
        · exact Or.inl (List.mem_of_mem_erase h1)
        · rcases List.mem_cons.mp h2 with rfl | h3
          · exact Or.inl (List.mem_of_find?_eq_some hfind)
          · exact Or.inr h3

theorem topoSort_sound (nodes : List Module) (edges : List (Module × Module))
    (out : List Module) (h : topoSort nodes edges = some out) :
    (∀ e ∈ edges, ∀ l₁ l₂, out = l₁ ++ e.2 :: l₂ → e.1 ∈ l₁) ∧
      (∀ x ∈ nodes, x ∈ out) ∧ (∀ x ∈ out, x ∈ nodes) := by
  unfold topoSort at h
  refine ⟨?_, ?_, ?_⟩
  · refine kahnLoop_sound edges _ _ _ _ h ?_
    intro e he l₁ l₂ hsplit
    simp at hsplit
  · intro x hx
    exact kahnLoop_mem edges _ _ _ _ h x (Or.inl hx)
  · intro x hx
    rcases kahnLoop_out_sub edges _ _ _ _ h x hx with h1 | h2
    · exact h1
    · cases h2

theorem exists_first_split {α : Type} [DecidableEq α] (a : α) (l : List α)
    (h : a ∈ l) : ∃ l₁ l₂, l = l₁ ++ a :: l₂ ∧ a ∉ l₁ := by
  induction l with
  | nil => cases h
  | cons b bs ih =>
    by_cases hab : a = b
    · exact ⟨[], bs, by rw [hab]; rfl, by simp⟩
    · have hmem : a ∈ bs := by
        rcases List.mem_cons.mp h with h1 | h2
        · exact absurd h1 hab
        · exact h2
      obtain ⟨l₁, l₂, heq, hnot⟩ := ih hmem
      refine ⟨b :: l₁, l₂, by rw [heq]; rfl, ?_⟩
      intro hc
      rcases List.mem_cons.mp hc with h1 | h2
      · exact hab h1
      · exact hnot h2

theorem topoSort_cycle_none (nodes : List Module) (edges : List (Module × Module))
    (a b : Module) (hab : (a, b) ∈ edges) (hba : (b, a) ∈ edges) (ha : a ∈ nodes) :
    topoSort nodes edges = none := by
  cases hs : topoSort nodes edges with
  | none => rfl
  | some out =>
    exfalso
    obtain ⟨hsound, hmem, -⟩ := topoSort_sound nodes edges out hs
    obtain ⟨l₁, l₂, heq, hnot⟩ := exists_first_split a out (hmem a ha)
    have hb1 : b ∈ l₁ := hsound (b, a) hba l₁ l₂ heq
    obtain ⟨p, s, hps⟩ := List.append_of_mem hb1
    have heq2 : out = p ++ b :: (s ++ a :: l₂) := by
      rw [heq, hps]; simp
    have ha2 : a ∈ p := hsound (a, b) hab p (s ++ a :: l₂) heq2
    exact hnot (hps ▸ List.mem_append.mpr (Or.inl ha2))

/-! ## The orderer's worklist loop (claims C3, C6, C7) -/

theorem topoNode_db_sub (m : Module) (ts : TopoState) :
    ∀ x ∈ ts.db, x ∈ (topoNode m ts).db := by
  intro x hx
  simp only [topoNode]
  split
  · exact hx
  · exact List.mem_append.mpr (Or.inl hx)

theorem topoNode_db_self (m : Module) (ts : TopoState) : m ∈ (topoNode m ts).db := by
  simp only [topoNode]
  split
  next h => exact h
  next h => exact List.mem_append.mpr (Or.inr (List.mem_singleton.mpr rfl))

theorem topoNode_db_cases (m : Module) (ts : TopoState) (x : Module)
    (hx : x ∈ (topoNode m ts).db) : x ∈ ts.db ∨ x = m := by
  simp only [topoNode] at hx
  split at hx
  · exact Or.inl hx
  · rcases List.mem_append.mp hx with h1 | h2
    · exact Or.inl h1
    · exact Or.inr (List.mem_singleton.mp h2)

theorem topoEdge_db_sub (a b : Module) (ts : TopoState) :
    ∀ x ∈ ts.db, x ∈ (topoEdge a b ts).db := by
  intro x hx
  exact topoNode_db_sub b _ x (topoNode_db_sub a ts x hx)

theorem topoEdge_db_left (a b : Module) (ts : TopoState) :
    a ∈ (topoEdge a b ts).db :=
  topoNode_db_sub b _ a (topoNode_db_self a ts)

theorem topoEdge_db_cases (a b : Module) (ts : TopoState) (x : Module)
    (hx : x ∈ (topoEdge a b ts).db) : x ∈ ts.db ∨ x = a ∨ x = b := by
  rcases topoNode_db_cases b _ x hx with h1 | h2
  · rcases topoNode_db_cases a ts x h1 with h3 | h4
    · exact Or.inl h3
    · exact Or.inr (Or.inl h4)
  · exact Or.inr (Or.inr h2)

theorem topoEdge_edges (a b : Module) (ts : TopoState) :
    (topoEdge a b ts).edges = ts.edges ++ [(a, b)] := rfl

theorem buildTopoCells_edges_mono (d : Design) (m : Module) :
    ∀ (cs : List Cell) (ts : TopoState) (wl : List Module),
    ∀ e ∈ ts.edges, e ∈ (buildTopoCells d m cs ts wl).1.edges := by
  intro cs
  induction cs with
  | nil => intro ts wl e he; exact he
  | cons c cs ih =>
    intro ts wl e he
    simp only [buildTopoCells]
    cases hm : d.module? c.type with
    | none => exact ih _ _ e he
    | some tpl =>
      refine ih _ _ e ?_
      rw [topoEdge_edges]
      exact List.mem_append.mpr (Or.inl he)

theorem buildTopoCells_wl_mono (d : Design) (m : Module) :
    ∀ (cs : List Cell) (ts : TopoState) (wl : List Module),
    ∀ x ∈ wl, x ∈ (buildTopoCells d m cs ts wl).2 := by
  intro cs
  induction cs with
  | nil => intro ts wl x hx; exact hx
  | cons c cs ih =>
    intro ts wl x hx
    cases hm : d.module? c.type with
    | none =>
      simp only [buildTopoCells, hm]
      exact ih _ _ x hx
    | some tpl =>
      simp only [buildTopoCells, hm]
      by_cases hin : tpl ∈ ts.db
      · rw [if_pos hin]
        exact ih _ _ x hx
      · rw [if_neg hin]
        exact ih _ _ x (List.mem_append.mpr (Or.inl hx))

theorem buildTopoCells_edges_all (d : Design) (m : Module) :
    ∀ (cs : List Cell) (ts : TopoState) (wl : List Module),
    ∀ c ∈ cs, ∀ tpl, d.module? c.type = some tpl →
      (tpl, m) ∈ (buildTopoCells d m cs ts wl).1.edges := by
  intro cs
  induction cs with
  | nil => intro ts wl c hc; cases hc
  | cons c0 cs ih =>
    intro ts wl c hc tpl htpl
    rcases List.mem_cons.mp hc with rfl | hc2
    · simp only [buildTopoCells, htpl]
      refine buildTopoCells_edges_mono d m cs _ _ (tpl, m) ?_
      rw [topoEdge_edges]
      exact List.mem_append.mpr (Or.inr (List.mem_singleton.mpr rfl))
    · simp only [buildTopoCells]
      cases hm : d.module? c0.type with
      | none => exact ih _ _ c hc2 tpl htpl
      | some tpl0 => exact ih _ _ c hc2 tpl htpl

theorem buildTopoCells_inv (d : Design) (m : Module) :
    ∀ (cs : List Cell) (ts : TopoState) (wl : List Module),
    ∀ mm ∈ (buildTopoCells d m cs ts wl).1.db,
      mm ∈ ts.db ∨ mm ∈ (buildTopoCells d m cs ts wl).2 ∨ mm = m := by
  intro cs
  induction cs with
  | nil => intro ts wl mm hmm; exact Or.inl hmm
  | cons c cs ih =>
    intro ts wl mm hmm
    cases hm : d.module? c.type with
    | none =>
      simp only [buildTopoCells, hm] at hmm ⊢
      exact ih _ _ mm hmm
    | some tpl =>
      simp only [buildTopoCells, hm] at hmm ⊢
      rcases ih _ _ mm hmm with h1 | h2 | h3
      · rcases topoEdge_db_cases tpl m ts mm h1 with hx | hx | hx
        · exact Or.inl hx
        · subst hx
          by_cases hin : mm ∈ ts.db
          · exact Or.inl hin
          · rw [if_neg hin]
            refine Or.inr (Or.inl ?_)
            refine buildTopoCells_wl_mono d m cs _ _ mm ?_
            exact List.mem_append.mpr (Or.inr (List.mem_singleton.mpr rfl))
        · exact Or.inr (Or.inr hx)
      · exact Or.inr (Or.inl h2)
      · exact Or.inr (Or.inr h3)

theorem remainingModules_anti (d : Design) (db dbx : List Module)
    (hsub : ∀ x ∈ db, x ∈ dbx) :
    remainingModules d dbx ≤ remainingModules d db := by
  unfold remainingModules
  apply List.countP_mono_left
  intro a _ hdec
  simp only [decide_eq_true_eq] at hdec ⊢
  intro hin
  exact hdec (hsub a hin)

theorem remainingModules_strict (d : Design) (db dbx : List Module) (tpl : Module)
    (hsub : ∀ x ∈ db, x ∈ dbx) (htin : tpl ∈ dbx)
    (htpl : tpl ∈ d.modules) (hnot : tpl ∉ db) :
    remainingModules d dbx < remainingModules d db := by
  unfold remainingModules
  obtain ⟨l₁, l₂, hsplit⟩ := List.append_of_mem htpl
  rw [hsplit]
  rw [List.countP_append, List.countP_append, List.countP_cons, List.countP_cons]
  have mono : ∀ l : List Module,
      l.countP (fun me => decide (me ∉ dbx)) ≤ l.countP (fun me => decide (me ∉ db)) := by
    intro l
    apply List.countP_mono_left
    intro a _ hdec
    simp only [decide_eq_true_eq] at hdec ⊢
    intro hin
    exact hdec (hsub a hin)
  have h1 := mono l₁
  have h2 := mono l₂
  have hp1 : decide (tpl ∉ dbx) = false := by simp [htin]
  have hp2 : decide (tpl ∉ db) = true := by simpa using hnot
  simp only [hp1, hp2, Bool.false_eq_true, if_false, if_true]
  omega

theorem buildTopoCells_measure (d : Design) (m : Module) :
    ∀ (cs : List Cell) (ts : TopoState) (wl : List Module),
    (buildTopoCells d m cs ts wl).2.length +
        remainingModules d (buildTopoCells d m cs ts wl).1.db ≤
      wl.length + remainingModules d ts.db := by
  intro cs
  induction cs with
  | nil => intro ts wl; exact le_refl _
  | cons c cs ih =>
    intro ts wl
    cases hm : d.module? c.type with
    | none =>
      simp only [buildTopoCells, hm]
      exact ih _ _
    | some tpl =>
      simp only [buildTopoCells, hm]
      by_cases hin : tpl ∈ ts.db
      · rw [if_pos hin]
        refine le_trans (ih _ _) ?_
        have := remainingModules_anti d ts.db (topoEdge tpl m ts).db (topoEdge_db_sub tpl m ts)
        omega
      · rw [if_neg hin]
        refine le_trans (ih _ _) ?_
        have hlt := remainingModules_strict d ts.db (topoEdge tpl m ts).db tpl
          (topoEdge_db_sub tpl m ts) (topoEdge_db_left tpl m ts)
          (moduleq_mem d _ tpl hm) hin
        simp only [List.length_append, List.length_singleton]
        omega

theorem buildTopoLoop_ne_none (d : Design) :
    ∀ (fuel : Nat) (wl : List Module) (ts : TopoState),
    wl.length + remainingModules d ts.db < fuel →
    buildTopoLoop d fuel wl ts ≠ none := by
  intro fuel
  induction fuel with
  | zero => intro wl ts h; omega
  | succ n ih =>
    intro wl ts h
    cases wl with
    | nil => simp [buildTopoLoop]
    | cons m wl =>
      simp only [buildTopoLoop]
      rcases hbc : buildTopoCells d m m.cells (topoNode m ts) wl with ⟨ts2, wl2⟩
      show buildTopoLoop d n wl2 ts2 ≠ none
      apply ih
      have h1 := buildTopoCells_measure d m m.cells (topoNode m ts) wl
      rw [hbc] at h1
      have h2 : remainingModules d (topoNode m ts).db ≤ remainingModules d ts.db :=
        remainingModules_anti d ts.db _ (topoNode_db_sub m ts)
      simp only [List.length_cons] at h
      simp only [Prod.fst, Prod.snd] at h1
      omega

theorem buildTopoFor_ne_none (d : Design) (selected : List Module) :
    buildTopoFor d selected ≠ none := by
  unfold buildTopoFor
  apply buildTopoLoop_ne_none
  show selected.length + remainingModules d [] < selected.length + d.modules.length + 1
  have hle : remainingModules d [] ≤ d.modules.length := List.countP_le_length _
  omega

theorem buildTopoLoop_scanned (d : Design) :
    ∀ (fuel : Nat) (wl : List Module) (ts tsOut : TopoState),
    buildTopoLoop d fuel wl ts = some tsOut →
    (∀ mm ∈ ts.db, mm ∈ wl ∨ ∀ cell ∈ mm.cells, ∀ tpl,
      d.module? cell.type = some tpl → (tpl, mm) ∈ ts.edges) →
    ∀ mm ∈ tsOut.db, ∀ cell ∈ mm.cells, ∀ tpl,
      d.module? cell.type = some tpl → (tpl, mm) ∈ tsOut.edges := by
  intro fuel
  induction fuel with
  | zero =>
    intro wl ts tsOut h hinv
    cases wl with
    | nil =>
      simp only [buildTopoLoop] at h
      obtain rfl := Option.some.inj h
      intro mm hmm
      rcases hinv mm hmm with h1 | h2
      · cases h1
      · exact h2
    | cons m wl => cases h
  | succ n ih =>
    intro wl ts tsOut h hinv
    cases wl with
    | nil =>
      simp only [buildTopoLoop] at h
      obtain rfl := Option.some.inj h
      intro mm hmm
      rcases hinv mm hmm with h1 | h2
      · cases h1
      · exact h2
    | cons m wl =>
      simp only [buildTopoLoop] at h
      rcases hbc : buildTopoCells d m m.cells (topoNode m ts) wl with ⟨ts2, wl2⟩
      rw [hbc] at h
      refine ih wl2 ts2 tsOut h ?_
      intro mm hmm
      have hscanm : ∀ cell ∈ m.cells, ∀ tpl, d.module? cell.type = some tpl →
          (tpl, m) ∈ ts2.edges := by
        intro cell hcell tpl htpl
        have := buildTopoCells_edges_all d m m.cells (topoNode m ts) wl cell hcell tpl htpl
        rw [hbc] at this
        exact this
      have hdbinv := buildTopoCells_inv d m m.cells (topoNode m ts) wl mm
      rw [hbc] at hdbinv
      rcases hdbinv hmm with h1 | h2 | h3
      · rcases topoNode_db_cases m ts mm h1 with hx | hx
        · rcases hinv mm hx with hy | hy
          · rcases List.mem_cons.mp hy with rfl | hz
            · exact Or.inr hscanm
            · refine Or.inl ?_
              have := buildTopoCells_wl_mono d m m.cells (topoNode m ts) wl mm hz
              rw [hbc] at this
              exact this
          · refine Or.inr ?_
            intro cell hcell tpl htpl
            have := buildTopoCells_edges_mono d m m.cells (topoNode m ts) wl
              (tpl, mm) (hy cell hcell tpl htpl)
            rw [hbc] at this
            exact this
        · subst hx
          exact Or.inr hscanm
      · exact Or.inl h2
      · subst h3
        exact Or.inr hscanm

theorem executePullProbes_order (d : Design) (selected sorted : List Module)
    (dout : Design) (acc : List (String × List String))
    (h : executePullProbes d selected = .ok (sorted, dout, acc)) :
    ∀ mA ∈ sorted, ∀ cell ∈ mA.cells, ∀ tpl, d.module? cell.type = some tpl →
      ∀ l₁ l₂, sorted = l₁ ++ mA :: l₂ → tpl ∈ l₁ := by
  obtain ⟨-, ts, hts, hsort, -⟩ := executePullProbes_ok_inv d selected sorted dout acc h
  intro mA hmA cell hcell tpl htpl l₁ l₂ hsplit
  obtain ⟨hsound, hmemall, houtsub⟩ := topoSort_sound ts.db ts.edges sorted hsort
  have hmAdb : mA ∈ ts.db := houtsub mA hmA
  unfold buildTopoFor at hts
  have hscan := buildTopoLoop_scanned d _ selected ⟨[], []⟩ ts hts
    (by intro mm hmm; cases hmm)
  have hedge : (tpl, mA) ∈ ts.edges := hscan mA hmAdb cell hcell tpl htpl
  exact hsound (tpl, mA) hedge l₁ l₂ hsplit

/-! # Claim theorems -/

/-- C1: in every trace of the worklist loop of `find_next_mux`, a selector
whose select line's name contains the reset substring "rstz" is never the
returned result — every `found` result names a select wire free of "rstz"
(first conjunct); and when such a reset-named selector's data input matches
the current chunk, the selector's `Y` output is pushed to the back of the
worklist and the port scan continues (second conjunct). -/
theorem claim_C1 :
    (∀ (fuel : Nat) (st : LoopState) (rn rm : String),
      (findNextMuxLoop fuel st).result = .found rn rm →
      ∃ mm cell, cell ∈ mm.cells ∧ cell.type = "$mux" ∧
        ∃ s sw, cell.getPort "\\S" = some s ∧ s.as_wire = some sw ∧
          strContains sw.name "rstz" = false ∧
          rn = find_better_wirename mm sw ∧ rm = mm.name) ∧
    (∀ (m : Module) (w : WireRef) (cell : Cell) (pname : String) (psig : SigSpec)
      (ps : List (String × SigSpec)) (q : List Pair) (s : SigSpec) (sw : WireRef)
      (y : SigSpec),
      muxDataMatch cell w.name pname psig = true →
      (pname == "\\S") = false →
      cell.getPort "\\S" = some s →
      s.as_wire = some sw →
      strContains sw.name "rstz" = true →
      cell.getPort "\\Y" = some y →
      phase1Ports m w cell ((pname, psig) :: ps) q =
        phase1Ports m w cell ps (q ++ [(m, y)])) :=
  ⟨findNextMuxLoop_found, phase1Ports_rstz_pushback⟩

/-- C1 witness: on the two-selector scenario of spec §8 (`data_in` feeds
`sel1` whose select is `rstz_ctrl`, `sel1` feeds `sel2` whose select is
`mode_sel`), the trace returns `mode_sel`, and the theorem yields its
non-reset characterization; the push-back equation holds at `sel1`. -/
theorem claim_C1_witness :
    (∃ mm cell, cell ∈ mm.cells ∧ cell.type = "$mux" ∧
      ∃ s sw, cell.getPort "\\S" = some s ∧ s.as_wire = some sw ∧
        strContains sw.name "rstz" = false ∧
        "\\mode_sel" = find_better_wirename mm sw ∧ "\\M" = mm.name) ∧
    phase1Ports modM wDataIn sel1 [("\\A", wholeSpec wDataIn)] [] =
      phase1Ports modM wDataIn sel1 [] ([] ++ [(modM, wholeSpec wMid)]) :=
  ⟨claim_C1.1 20 ⟨dM, [], [(modM, wholeSpec wDataIn)], []⟩ "\\mode_sel" "\\M" (by decide),
   claim_C1.2 modM wDataIn sel1 "\\A" (wholeSpec wDataIn) [] []
     (wholeSpec wRstz) wRstz (wholeSpec wMid)
     (by decide) (by decide) (by decide) (by decide) (by decide) (by decide)⟩

/-- C2 counterexample: with two modules A2 and B2 both instantiating C2
and discovery order [A2, B2], the map records B2 — the parent discovered
last — not the first one (A2), refuting the claim as stated. -/
theorem claim_C2_counterexample :
    mapLookup (initialize_module_to_parent_map dPm [pmA, pmB]) pmC = some pmB ∧
      pmA ≠ pmB := by
  constructor
  · decide
  · decide

/-- C2 (amended): for every module that is instantiated at least once
among the modules under analysis, the module-to-parent map records as its
parent the instantiating module discovered last during map construction
(each unordered-map assignment overwrites the previous one), i.e. the
first instantiating module of the reversed discovery order. -/
theorem claim_C2 (d : Design) (mods : List Module) (child : Module) :
    mapLookup (initialize_module_to_parent_map d mods) child =
      mods.reverse.find? (instantiatesB d child) :=
  init_map_records_last d mods child

/-- C3: whenever `pull_control_registers_probes` runs to completion, the
processing order puts every module after all modules it instantiates:
wherever a module occurs in the order, each module one of its cells
instantiates occurs strictly earlier (first conjunct); in particular, on
the three-level chain where A instantiates B and B instantiates C, the
processing order is C, then B, then A (second conjunct). -/
theorem claim_C3 :
    (∀ (d : Design) (selected sorted : List Module) (dout : Design)
       (acc : List (String × List String)),
      executePullProbes d selected = .ok (sorted, dout, acc) →
      ∀ mA ∈ sorted, ∀ cell ∈ mA.cells, ∀ tpl, d.module? cell.type = some tpl →
        ∀ l₁ l₂, sorted = l₁ ++ mA :: l₂ → tpl ∈ l₁) ∧
    executePullProbes dChain [chainA, chainB, chainC] =
      .ok ([chainC, chainB, chainA], dChainOut, accChain) :=
  ⟨executePullProbes_order, by rfl⟩

/-- C3 witness: on the chain design, B occurs in the order [C, B, A] at
the split [C] ++ B :: [A], and the theorem places C — which B
instantiates — in the prefix [C]. -/
theorem claim_C3_witness : chainC ∈ [chainC] :=
  claim_C3.1 dChain [chainA, chainB, chainC] [chainC, chainB, chainA] dChainOut accChain
    (by rfl) chainB (by decide) instCellC (by decide) chainC (by decide)
    [chainC] [chainA] (by decide)

/-- C4 counterexample: the probe wire name the puller creates on the
register fixture is "\crtlreg_prbsig7WIRE0BITS0_8_", which contains the
character '\' (sanitize_wire_name prepends one), refuting the claim that
the sanitized name contains no occurrence of '\'. -/
theorem claim_C4_counterexample :
    executePullProbes dP [modP] = .ok ([modP], dPout, accP) ∧
      probeName8.toList.contains '\\' = true := by
  constructor
  · rfl
  · decide

/-- C4 (amended): every sanitized name is a single leading backslash
followed by the input's characters with every occurrence of '$', ':',
'.', '\', '[' and ']' removed (first conjunct); every probe wire name a
complete run of the puller creates has that shape — leading backslash,
no banned character afterwards (second conjunct); and the names of the
register branch are the deterministic function of the owning cell's
interned name index, the running chunk index and the chunk's bit offsets
given by `probeNamesFrom` (third conjunct). -/
theorem claim_C4 :
    (∀ s : String, (sanitize_wire_name s).toList =
        '\\' :: s.toList.filter (fun c => !bannedChar c)) ∧
    (∀ (d : Design) (selected sorted : List Module) (dout : Design)
       (acc : List (String × List String)),
      executePullProbes d selected = .ok (sorted, dout, acc) →
      ∀ e ∈ acc, ∀ n ∈ e.2,
        n.toList.head? = some '\\' ∧ ∀ c ∈ n.toList.tail, bannedChar c = false) ∧
    (∀ (cell : Cell) (chs : List SigChunk) (k : Nat) (m mo : Module)
       (names ns : List String),
      pullChunks cell chs k m names = .ok (mo, ns) →
      ns = names ++ probeNamesFrom cell.nameIdx chs k) :=
  ⟨sanitize_toList, executePullProbes_sanitized,
   fun cell chs k m mo names ns h => pullChunks_names cell chs k m names mo ns h⟩

/-- C4 witness: the name created on the register fixture starts with the
backslash and has no banned character after it; and the register branch
produced exactly the `probeNamesFrom` name for the one eight-bit chunk. -/
theorem claim_C4_witness :
    (probeName8.toList.head? = some '\\' ∧
      ∀ c ∈ probeName8.toList.tail, bannedChar c = false) ∧
    [probeName8] = [] ++ probeNamesFrom 7 [⟨some ⟨"\\q8", 8⟩, 0, 8⟩] 0 :=
  ⟨claim_C4.2.1 dP [modP] [modP] dPout accP (by rfl) ("\\P", [probeName8]) (by decide)
     probeName8 (by decide),
   claim_C4.2.2 regCell [⟨some ⟨"\\q8", 8⟩, 0, 8⟩] 0 modP modPmid [] [probeName8]
     (by rfl)⟩

/-- C5: within one trace, no (module, signal) Search Node is expanded
twice — the list of nodes popped while unexplored has no duplicates and
is disjoint from the initial explored set (first conjunct); and a popped
node already in the explored set is skipped without expansion: the loop
continues on the remaining worklist with unchanged state (second
conjunct). -/
theorem claim_C5 :
    (∀ (fuel : Nat) (st : LoopState),
      (findNextMuxLoop fuel st).expanded.Nodup ∧
        ∀ p ∈ (findNextMuxLoop fuel st).expanded, p ∉ st.visited) ∧
    (∀ (n : Nat) (st : LoopState) (p : Pair) (rest : List Pair) (wr : WireRef),
      st.queue = p :: rest → p ∈ st.visited → p.2.as_wire = some wr →
      findNextMuxLoop (n + 1) st = findNextMuxLoop n { st with queue := rest }) :=
  ⟨findNextMuxLoop_expanded_inv, findNextMuxLoop_skip_eq⟩

/-- C5 witness: on the feedback design, the full run expands each node at
most once, and a worklist whose head is already explored is skipped. -/
theorem claim_C5_witness :
    ((findNextMuxLoop 20 ⟨dF, [], [(modF, wholeSpec wFa)], []⟩).expanded.Nodup ∧
      ∀ p ∈ (findNextMuxLoop 20 ⟨dF, [], [(modF, wholeSpec wFa)], []⟩).expanded,
        p ∉ ([] : List Pair)) ∧
    findNextMuxLoop 1 ⟨dF, [], [(modF, wholeSpec wFa)], [(modF, wholeSpec wFa)]⟩ =
      findNextMuxLoop 0 ⟨dF, [], [], [(modF, wholeSpec wFa)]⟩ :=
  ⟨claim_C5.1 20 ⟨dF, [], [(modF, wholeSpec wFa)], []⟩,
   claim_C5.2 0 ⟨dF, [], [(modF, wholeSpec wFa)], [(modF, wholeSpec wFa)]⟩
     (modF, wholeSpec wFa) [] wFa rfl (by decide) (by decide)⟩

/-- C6: the tracer terminates on every finite design — for any worklist
of design nodes and any explored set there is enough fuel for the loop of
`find_next_mux` to finish without exhausting it (first conjunct); and the
worklist loop feeding the dependency orderer of `pull_probes` always
completes within its fuel (second conjunct); the rest of `pull_probes` is
structural recursion over finite lists. -/
theorem claim_C6 :
    (∀ (d : Design) (pmap : List (Module × Module)),
      (∀ kv ∈ pmap, kv.2 ∈ d.modules) →
      ∀ (q visited : List Pair), (∀ x ∈ q, nodeInDesign d x) →
      ∃ n, (findNextMuxLoop n ⟨d, pmap, q, visited⟩).result ≠ .fuelOut) ∧
    (∀ (d : Design) (selected : List Module), buildTopoFor d selected ≠ none) := by
  constructor
  · intro d pmap hpm q visited hq
    exact findNextMuxLoop_term d pmap hpm (remainingNodes d visited) visited
      (le_refl _) q hq
  · exact buildTopoFor_ne_none

/-- C6 witness: the trace started on the combinational feedback cycle
through two inverters has sufficient fuel, and the orderer's worklist
completes on the chain design. -/
theorem claim_C6_witness :
    (∃ n, (findNextMuxLoop n ⟨dF, [], [(modF, wholeSpec wFa)], []⟩).result ≠ .fuelOut) ∧
      buildTopoFor dChain [chainA, chainB, chainC] ≠ none :=
  ⟨claim_C6.1 dF [] (by intro kv hkv; cases hkv) [(modF, wholeSpec wFa)] []
     (by intro x hx; rw [List.mem_singleton.mp hx]; exact ⟨by decide, by decide⟩),
   claim_C6.2 dChain [chainA, chainB, chainC]⟩

/-- C7: a cyclic instantiation graph makes the dependency orderer fail —
whenever the edge list contains a two-cycle between nodes of the sort,
the topological sort returns none (first conjunct); and on the design
where A instantiates B and B instantiates A, the pass aborts with the
structural error before any per-module processing, delivering no design
(second conjunct). -/
theorem claim_C7 :
    (∀ (nodes : List Module) (edges : List (Module × Module)) (a b : Module),
      (a, b) ∈ edges → (b, a) ∈ edges → a ∈ nodes →
      topoSort nodes edges = none) ∧
    executePullProbes dCyc [cycA, cycB] =
      .error "Recursive modules are not supported by control_registers_probes." :=
  ⟨topoSort_cycle_none, by rfl⟩

/-- C7 witness: the sort fails on the concrete two-cycle between the two
recursive modules. -/
theorem claim_C7_witness :
    topoSort [cycA, cycB] [(cycB, cycA), (cycA, cycB)] = none :=
  claim_C7.1 [cycA, cycB] [(cycB, cycA), (cycA, cycB)] cycB cycA
    (by decide) (by decide) (by decide)

/-- C8: a run of the tracer's worklist loop never changes the design (or
the parent map): the final state carries the same design and parent map
as the initial state, for every fuel (first conjunct); hence the worker's
complete run leaves the design exactly as given (second conjunct). Only
transient search state (worklist, explored set) evolves. -/
theorem claim_C8 :
    (∀ (fuel : Nat) (st : LoopState),
      (findNextMuxLoop fuel st).final.design = st.design ∧
        (findNextMuxLoop fuel st).final.pmap = st.pmap) ∧
    (∀ (d : Design) (sm : Module) (mods : List Module) (wn : String) (fuel : Nat),
      (findNextMuxWorkerRun d sm mods wn fuel).final.design = d) := by
  refine ⟨findNextMuxLoop_frame, ?_⟩
  intro d sm mods wn fuel
  unfold findNextMuxWorkerRun
  split
  · rfl
  next w hw => exact (findNextMuxLoop_frame fuel _).1

/-- C9: the selector check matches a port exactly when the cell is a
`$mux`, the port is an input port and its connection is a single chunk
covering a whole wire whose name equals the traced chunk's wire's name
(first conjunct); a proper bit-range chunk never matches (second
conjunct); a concatenation never matches (third conjunct); and a
non-matching port is skipped by the selector scan without any effect
(fourth conjunct). -/
theorem claim_C9 :
    (∀ (cell : Cell) (wname pname : String) (psig : SigSpec),
      muxDataMatch cell wname pname psig = true ↔
        cell.type = "$mux" ∧ pname ∈ cell.inputPorts ∧
          ∃ wr off, psig.chunks = [⟨some wr, off, wr.wwidth⟩] ∧ wr.name = wname) ∧
    (∀ (cell : Cell) (wname pname : String) (wr : WireRef) (off wd : Nat),
      wd ≠ wr.wwidth →
      muxDataMatch cell wname pname ⟨[⟨some wr, off, wd⟩]⟩ = false) ∧
    (∀ (cell : Cell) (wname pname : String) (c1 c2 : SigChunk)
       (rest : List SigChunk),
      muxDataMatch cell wname pname ⟨c1 :: c2 :: rest⟩ = false) ∧
    (∀ (m : Module) (w : WireRef) (cell : Cell) (pname : String) (psig : SigSpec)
       (ps : List (String × SigSpec)) (q : List Pair),
      muxDataMatch cell w.name pname psig = false →
      phase1Ports m w cell ((pname, psig) :: ps) q = phase1Ports m w cell ps q) :=
  ⟨muxDataMatch_iff, muxDataMatch_bitrange_false, muxDataMatch_concat_false,
   phase1Ports_skip⟩

/-- C9 witness: a one-bit range of the two-bit wire never matches the
selector guard, and a port wired to a different whole wire is skipped by
the selector scan. -/
theorem claim_C9_witness :
    muxDataMatch sel1 "\\sbig" "\\A" ⟨[⟨some wSbig, 0, 1⟩]⟩ = false ∧
    phase1Ports modM wDataIn sel2 [("\\A", wholeSpec wMid)] [] =
      phase1Ports modM wDataIn sel2 [] [] :=
  ⟨claim_C9.2.1 sel1 "\\sbig" "\\A" wSbig 0 1 (by decide),
   claim_C9.2.2.2 modM wDataIn sel2 "\\A" (wholeSpec wMid) [] [] (by decide)⟩

/-- C10: the select-line dereference of the reset heuristic is total
exactly under the whole-wire precondition — if every `$mux` cell of every
design module has its `S` port connected to a single whole wire, no trace
started on design nodes can abort at the unguarded
`getPort(ID::S).as_wire()` (or at a missing `S` connection) (first
conjunct); without the precondition the abort is reachable: on the design
whose selector's `S` port is a one-bit range of a two-bit wire, the trace
from `din` aborts exactly there (second conjunct). -/
theorem claim_C10 :
    (∀ (d : Design) (pmap : List (Module × Module)),
      (∀ kv ∈ pmap, kv.2 ∈ d.modules) →
      (∀ m ∈ d.modules, ∀ cell ∈ m.cells, cell.type = "$mux" →
        ∃ s, cell.getPort "\\S" = some s ∧ s.is_wire = true) →
      ∀ (fuel : Nat) (q visited : List Pair),
      (∀ x ∈ q, nodeInDesign d x) →
      (findNextMuxLoop fuel ⟨d, pmap, q, visited⟩).result ≠ .crash .sAsWire ∧
        (findNextMuxLoop fuel ⟨d, pmap, q, visited⟩).result ≠ .crash .sPortMissing) ∧
    (findNextMuxWorkerRun dBad modBad [modBad] "din" 20).result = .crash .sAsWire :=
  ⟨findNextMuxLoop_no_sassert, by decide⟩

/-- C10 witness: the two-selector scenario satisfies the whole-wire
precondition, so its trace cannot abort at the select-line dereference. -/
theorem claim_C10_witness :
    (findNextMuxLoop 20 ⟨dM, [], [(modM, wholeSpec wDataIn)], []⟩).result ≠
        .crash .sAsWire ∧
      (findNextMuxLoop 20 ⟨dM, [], [(modM, wholeSpec wDataIn)], []⟩).result ≠
        .crash .sPortMissing :=
  claim_C10.1 dM [] (by intro kv hkv; cases hkv)
    (by
      intro m hm cell hc htype
      rw [List.mem_singleton.mp hm] at hc
      rcases List.mem_cons.mp hc with rfl | hc2
      · exact ⟨wholeSpec wRstz, by decide, by decide⟩
      · rw [List.mem_singleton.mp hc2]
        exact ⟨wholeSpec wMode, by decide, by decide⟩)
    20 [(modM, wholeSpec wDataIn)] []
    (by intro x hx; rw [List.mem_singleton.mp hx]; exact ⟨by decide, by decide⟩)

end Milesan
